import Mathlib

/-!
# RelinkingModel: a shallow embedding of `src/app/RelinkingModel.cpp`

The registry (`RelinkingModel`), its `Relinker` and the task queue of its
`StatusUpdateThread` are embedded as pure state-passing functions.

Modelling conventions.
* `QString` is a list of characters; only `==`, `+`, `length`, `startsWith`,
  `endsWith`, `right` and `operator<` are used by the source.
* `int` rows are `Int`; `static_cast<int>(m_items.size())` is the cast of the
  length (the registry never holds `2^31` entries).
* Every emitted Qt signal and every call into the status-update thread is
  recorded, in program order, in a list of `Effect`s returned next to the new
  state.
* The worker thread is interleaved with the caller at the granularity of its
  critical sections (`System.step`); `QFile::exists` is an input of the step.
-/

namespace Relinking

/-! ## Qt strings -/

/-- A `QString`, as the sequence of its characters. -/
abbrev QString := List Char

/-- `QString::startsWith(const QString&)`. -/
def QString.startsWith (s p : QString) : Bool := p.isPrefixOf s

/-- `QString::endsWith(QChar)`. -/
def QString.endsWith (s : QString) (c : Char) : Bool := s.getLast? == some c

/-- `QString::right(int n)`: the `n` rightmost characters; the entire string when
`n` is negative or at least the size of the string. -/
def QString.right (s : QString) (n : Int) : QString :=
  if n < 0 ∨ (s.length : Int) ≤ n then s else s.drop (s.length - n.toNat)

/-! ## Data model -/

/-- Modelled from the spec: the enumeration `RelinkablePath::Type` (declared in
`RelinkablePath.h`), the kind `{File, Directory}` of a tracked path. -/
inductive PathType where
  | File
  | Dir
  deriving DecidableEq

/-- Modelled from the spec: the class `RelinkablePath` (declared in
`RelinkablePath.h`); a value carries its path in normalized form and its kind,
read through `normalizedPath()` and `type()`. -/
structure RelinkablePath where
  normalizedPath : QString
  type : PathType
  deriving DecidableEq

/-- Modelled from the spec: the enumeration `RelinkingModel::Status` (declared in
`RelinkingModel.h`), the liveness `{Exists, Missing, Pending}` of a path. -/
inductive Status where
  | Exists
  | Missing
  | StatusUpdatePending
  deriving DecidableEq

/-- Modelled from the spec: the struct `RelinkingModel::Item` (declared in
`RelinkingModel.h`), one tracked path with its three path variants, its kind and
its two statuses; the fields are those initialised by `Item::Item`. -/
structure Item where
  origPath : QString
  committedPath : QString
  uncommittedPath : QString
  type : PathType
  committedStatus : Status
  uncommittedStatus : Status
  deriving DecidableEq

/-- `RelinkingModel::Item::Item(const RelinkablePath&)`. -/
def Item.ofPath (path : RelinkablePath) : Item :=
  { origPath := path.normalizedPath
    committedPath := path.normalizedPath
    uncommittedPath := path.normalizedPath
    type := path.type
    committedStatus := Status.StatusUpdatePending
    uncommittedStatus := Status.StatusUpdatePending }

/-! ## Relinker -/

/-- Modelled from the spec: the member `m_mappings` of `RelinkingModel::Relinker`
(declared in `RelinkingModel.h`), a table from original path to committed path
with at most one record per key, kept here as an association list. -/
structure Relinker where
  m_mappings : List (QString × QString)
  deriving DecidableEq

/-- A default-constructed `Relinker`. -/
def Relinker.empty : Relinker := ⟨[]⟩

/-- `Relinker::addMapping`: `m_mappings[from] = to`. -/
def Relinker.addMapping (r : Relinker) (from_ to_ : QString) : Relinker :=
  ⟨(from_, to_) :: r.m_mappings.filter (fun kv => decide (kv.1 ≠ from_))⟩

/-- `m_mappings.find(key)`: the mapped value of `key`, if any. -/
def Relinker.find : List (QString × QString) → QString → Option QString
  | [], _ => none
  | kv :: rest, key => if kv.1 = key then some kv.2 else Relinker.find rest key

/-- `Relinker::substitutionPathFor`. -/
def Relinker.substitutionPathFor (r : Relinker) (path : RelinkablePath) : QString :=
  match Relinker.find r.m_mappings path.normalizedPath with
  | some to_ => to_
  | none => path.normalizedPath

/-- `Relinker::swap`: exchanges the tables of the two relinkers. -/
def Relinker.swap (r other : Relinker) : Relinker × Relinker := (other, r)

/-! ## The status-update thread and its task queue -/

/-- `StatusUpdateThread::Task`. -/
structure Task where
  path : QString
  row : Int
  deriving DecidableEq

/-- `RelinkingModel::StatusUpdateResponse`. -/
structure StatusUpdateResponse where
  m_path : QString
  m_row : Int
  m_status : Status
  deriving DecidableEq

/-- The state of `StatusUpdateThread` guarded by `m_mutex`. `m_tasks` lists the
multi-index container in the order of its sequenced index (`m_tasksByPriority`),
front first; the hashed-unique index allows one task per path. `isRunning` is
`QThread::isRunning()`. -/
structure StatusUpdateThread where
  m_tasks : List Task
  m_pathBeingProcessed : QString
  m_exiting : Bool
  isRunning : Bool
  deriving DecidableEq

/-- `StatusUpdateThread::StatusUpdateThread`. -/
def StatusUpdateThread.init : StatusUpdateThread :=
  { m_tasks := [], m_pathBeingProcessed := [], m_exiting := false, isRunning := false }

/-- `m_tasksByPath.insert(task)` on the hashed-unique index: when a task with the
same path is present the container is unchanged and the position of that task is
returned with `false`; otherwise the task is appended to the sequenced index and
its position is returned with `true`. -/
def TaskList.insert (tasks : List Task) (task : Task) : List Task × Nat × Bool :=
  match tasks.findIdx? (fun t => decide (t.path = task.path)) with
  | some pos => (tasks, pos, false)
  | none => (tasks ++ [task], tasks.length, true)

/-- `m_tasksByPriority.relocate(m_tasksByPriority.end(), it)`: moves the task at
position `pos` to the end of the sequenced index. -/
def TaskList.relocateToEnd (tasks : List Task) (pos : Nat) : List Task :=
  match tasks.get? pos with
  | some t => tasks.eraseIdx pos ++ [t]
  | none => tasks

/-- `StatusUpdateThread::requestStatusUpdate`. -/
def StatusUpdateThread.requestStatusUpdate (t : StatusUpdateThread) (path : QString)
    (row : Int) : StatusUpdateThread :=
  if t.m_exiting then t
  else if path = t.m_pathBeingProcessed then t
  else
    let ins := TaskList.insert t.m_tasks ⟨path, row⟩
    { t with m_tasks := TaskList.relocateToEnd ins.1 ins.2.1, isRunning := true }

/-- The queue after lines 344-347 of `requestStatusUpdate`: the insertion of the
task, then the relocation of the task found or inserted. -/
def TaskList.request (tasks : List Task) (task : Task) : List Task :=
  TaskList.relocateToEnd (TaskList.insert tasks task).1 (TaskList.insert tasks task).2.1

/-- A sequence of `requestStatusUpdate` calls for one path, one call per row, with
no step of the worker in between. -/
def StatusUpdateThread.requestStatusUpdates (t : StatusUpdateThread) (path : QString)
    (rows : List Int) : StatusUpdateThread :=
  rows.foldl (fun acc row => acc.requestStatusUpdate path row) t

/-! ## The registry -/

/-- What the registry does to the outside: the signals it emits and the calls it
makes into the status-update thread. -/
inductive Effect where
  /-- `beginInsertRows(QModelIndex(), first, last)` followed by `endInsertRows()`. -/
  | rowsInserted (first last : Int)
  /-- `emit dataChanged(index(first), index(last))`. -/
  | dataChanged (first last : Int)
  /-- `m_statusUpdateThread->requestStatusUpdate(path, row)`. -/
  | statusUpdateRequested (path : QString) (row : Int)
  deriving DecidableEq

/-- The data members of `RelinkingModel` (the icons apart). `m_origPathSet` is the
`std::set<QString>` of tracked original paths, kept as a duplicate-free list. -/
structure RelinkingModel where
  m_items : List Item
  m_origPathSet : List QString
  m_relinker : Relinker
  m_statusUpdateThread : StatusUpdateThread
  m_haveUncommittedChanges : Bool
  deriving DecidableEq

/-- `RelinkingModel::RelinkingModel`. -/
def RelinkingModel.init : RelinkingModel :=
  { m_items := []
    m_origPathSet := []
    m_relinker := Relinker.empty
    m_statusUpdateThread := StatusUpdateThread.init
    m_haveUncommittedChanges := true }

/-- `std::set<QString>::insert`: the set afterwards and whether the value was
inserted. -/
def origPathSetInsert (s : List QString) (p : QString) : List QString × Bool :=
  if p ∈ s then (s, false) else (s ++ [p], true)

/-- The body of `RelinkingModel::requestStatusUpdate` on the item that
`m_items[index.row()]` refers to. -/
def requestStatusUpdateItem (item : Item) (row : Int) (th : StatusUpdateThread) :
    Item × StatusUpdateThread × List Effect :=
  let item1 := { item with uncommittedStatus := Status.StatusUpdatePending }
  (item1, th.requestStatusUpdate item1.uncommittedPath row,
    [Effect.statusUpdateRequested item1.uncommittedPath row])

/-- `RelinkingModel::requestStatusUpdate(index(row))`; `assert(index.isValid())`
excludes a row that is out of range. -/
def RelinkingModel.requestStatusUpdate (m : RelinkingModel) (row : Nat) :
    RelinkingModel × List Effect :=
  match m.m_items.get? row with
  | none => (m, [])
  | some item =>
    let r := requestStatusUpdateItem item row m.m_statusUpdateThread
    ({ m with m_items := m.m_items.set row r.1, m_statusUpdateThread := r.2.1 }, r.2.2)

/-- `RelinkingModel::addPath`. -/
def RelinkingModel.addPath (m : RelinkingModel) (path : RelinkablePath) :
    RelinkingModel × List Effect :=
  let ins := origPathSetInsert m.m_origPathSet path.normalizedPath
  if !ins.2 then (m, [])
  else
    let first : Int := m.m_items.length
    let m1 := { m with m_origPathSet := ins.1, m_items := m.m_items ++ [Item.ofPath path] }
    let r := m1.requestStatusUpdate (m1.m_items.length - 1)
    (r.1, Effect.rowsInserted first first :: r.2)

/-- `RelinkingModel::ensureEndsWithSlash`. -/
def ensureEndsWithSlash (str : QString) : QString :=
  if !QString.endsWith str '/' then str ++ ['/'] else str

/-- The first part of the body of the loop of `replacePrefix` (lines 159-176): the
item afterwards and the value of `modified`. -/
def replacePrefixItem (pfx slashTerminatedPrefix replacement : QString) (type : PathType)
    (item : Item) : Item × Bool :=
  if type = PathType.File then
    if item.type = PathType.File ∧ item.uncommittedPath = pfx then
      ({ item with uncommittedPath := replacement }, true)
    else (item, false)
  else
    if QString.startsWith item.uncommittedPath slashTerminatedPrefix then
      let suffixLen : Int :=
        (item.uncommittedPath.length : Int) - (slashTerminatedPrefix.length : Int) + 1
      ({ item with
          uncommittedPath := replacement ++ QString.right item.uncommittedPath suffixLen },
        true)
    else if item.uncommittedPath = pfx then
      ({ item with uncommittedPath := replacement }, true)
    else (item, false)

/-- The variables carried by the loop of `replacePrefix`, with the items already
visited and the effects emitted so far by the rest of the loop. -/
structure ReplaceLoop where
  items : List Item
  row : Int
  modifiedRowspanBegin : Int
  haveUncommittedChanges : Bool
  thread : StatusUpdateThread
  emitted : List Effect
  deriving DecidableEq

/-- The loop `for (Item& item : m_items)` of `replacePrefix` over the items still
to visit; `row` is the counter before `++row`. -/
def replacePrefixLoop (pfx slashTerminatedPrefix replacement : QString) (type : PathType) :
    List Item → Int → Int → Bool → StatusUpdateThread → ReplaceLoop
  | [], row, rowspanBegin, haveChanges, th =>
    { items := [], row := row, modifiedRowspanBegin := rowspanBegin,
      haveUncommittedChanges := haveChanges, thread := th, emitted := [] }
  | item :: rest, row0, rowspanBegin, haveChanges, th =>
    let row := row0 + 1
    let rw := replacePrefixItem pfx slashTerminatedPrefix replacement type item
    if rw.2 then
      let rowspanBegin1 := if rowspanBegin = -1 then row else rowspanBegin
      let rq := requestStatusUpdateItem rw.1 row th
      let out := replacePrefixLoop pfx slashTerminatedPrefix replacement type rest row
        rowspanBegin1 true rq.2.1
      { out with
        items := rq.1 :: out.items
        emitted := Effect.dataChanged rowspanBegin1 row :: (rq.2.2 ++ out.emitted) }
    else
      if rowspanBegin ≠ -1 then
        let out := replacePrefixLoop pfx slashTerminatedPrefix replacement type rest row
          (-1) haveChanges th
        { out with
          items := rw.1 :: out.items
          emitted := Effect.dataChanged rowspanBegin row :: out.emitted }
      else
        let out := replacePrefixLoop pfx slashTerminatedPrefix replacement type rest row
          rowspanBegin haveChanges th
        { out with items := rw.1 :: out.items }

/-- `RelinkingModel::replacePrefix`. -/
def RelinkingModel.replacePrefix (m : RelinkingModel) (pfx replacement : QString)
    (type : PathType) : RelinkingModel × List Effect :=
  let slashTerminatedPrefix := ensureEndsWithSlash pfx
  let out := replacePrefixLoop pfx slashTerminatedPrefix replacement type m.m_items (-1) (-1)
    m.m_haveUncommittedChanges m.m_statusUpdateThread
  let last :=
    if out.modifiedRowspanBegin ≠ -1 then
      [Effect.dataChanged out.modifiedRowspanBegin out.row]
    else []
  ({ m with
      m_items := out.items
      m_haveUncommittedChanges := out.haveUncommittedChanges
      m_statusUpdateThread := out.thread },
    out.emitted ++ last)

/-- `std::adjacent_find`: the position of the first element that equals its
successor, if there is one (`none` stands for `end()`). -/
def adjacent_find : List QString → Option Nat
  | a :: b :: rest =>
    if a = b then some 0 else (adjacent_find (b :: rest)).map (fun i => i + 1)
  | _ => none

/-- `std::sort` on a vector of `QString`: the elements in ascending order of
`operator<`. -/
def sortPaths (paths : List QString) : List QString :=
  paths.insertionSort (fun a b => a ≤ b)

/-- `RelinkingModel::checkForMerges`. -/
def RelinkingModel.checkForMerges (m : RelinkingModel) : Bool :=
  let newPaths := m.m_items.map (fun item => item.uncommittedPath)
  (adjacent_find (sortPaths newPaths)).isSome

/-- The variables carried by the loop of `commitChanges`. -/
structure CommitLoop where
  items : List Item
  row : Int
  modifiedRowspanBegin : Int
  newRelinker : Relinker
  emitted : List Effect
  deriving DecidableEq

/-- The loop of `commitChanges` over the items still to visit; `row` is the counter
before `++row`. -/
def commitLoop : List Item → Int → Int → Relinker → CommitLoop
  | [], row, rowspanBegin, newRelinker =>
    { items := [], row := row, modifiedRowspanBegin := rowspanBegin,
      newRelinker := newRelinker, emitted := [] }
  | item :: rest, row0, rowspanBegin, newRelinker =>
    let row := row0 + 1
    if item.committedPath ≠ item.uncommittedPath then
      let item1 := { item with
        committedPath := item.uncommittedPath, committedStatus := item.uncommittedStatus }
      let newRelinker1 := newRelinker.addMapping item1.origPath item1.committedPath
      let rowspanBegin1 := if rowspanBegin = -1 then row else rowspanBegin
      let out := commitLoop rest row rowspanBegin1 newRelinker1
      { out with items := item1 :: out.items }
    else
      if rowspanBegin ≠ -1 then
        let out := commitLoop rest row (-1) newRelinker
        { out with
          items := item :: out.items
          emitted := Effect.dataChanged rowspanBegin row :: out.emitted }
      else
        let out := commitLoop rest row rowspanBegin newRelinker
        { out with items := item :: out.items }

/-- `RelinkingModel::commitChanges`. -/
def RelinkingModel.commitChanges (m : RelinkingModel) : RelinkingModel × List Effect :=
  if !m.m_haveUncommittedChanges then (m, [])
  else
    let out := commitLoop m.m_items (-1) (-1) Relinker.empty
    let last :=
      if out.modifiedRowspanBegin ≠ -1 then
        [Effect.dataChanged out.modifiedRowspanBegin out.row]
      else []
    ({ m with
        m_items := out.items
        m_relinker := (Relinker.swap m.m_relinker out.newRelinker).1
        m_haveUncommittedChanges := false },
      out.emitted ++ last)

/-- The variables carried by the loop of `rollbackChanges`. -/
structure RollbackLoop where
  items : List Item
  row : Int
  modifiedRowspanBegin : Int
  emitted : List Effect
  deriving DecidableEq

/-- The loop of `rollbackChanges` over the items still to visit; `row` is the
counter before `++row`. -/
def rollbackLoop : List Item → Int → Int → RollbackLoop
  | [], row, rowspanBegin =>
    { items := [], row := row, modifiedRowspanBegin := rowspanBegin, emitted := [] }
  | item :: rest, row0, rowspanBegin =>
    let row := row0 + 1
    if item.uncommittedPath ≠ item.committedPath then
      let item1 := { item with
        uncommittedPath := item.committedPath, uncommittedStatus := item.committedStatus }
      let rowspanBegin1 := if rowspanBegin = -1 then row else rowspanBegin
      let out := rollbackLoop rest row rowspanBegin1
      { out with items := item1 :: out.items }
    else
      if rowspanBegin ≠ -1 then
        let out := rollbackLoop rest row (-1)
        { out with
          items := item :: out.items
          emitted := Effect.dataChanged rowspanBegin row :: out.emitted }
      else
        let out := rollbackLoop rest row rowspanBegin
        { out with items := item :: out.items }

/-- `RelinkingModel::rollbackChanges`. -/
def RelinkingModel.rollbackChanges (m : RelinkingModel) : RelinkingModel × List Effect :=
  if !m.m_haveUncommittedChanges then (m, [])
  else
    let out := rollbackLoop m.m_items (-1) (-1)
    let last :=
      if out.modifiedRowspanBegin ≠ -1 then
        [Effect.dataChanged out.modifiedRowspanBegin out.row]
      else []
    ({ m with m_items := out.items, m_haveUncommittedChanges := false },
      out.emitted ++ last)

/-- `RelinkingModel::customEvent` on the payload of the event. -/
def RelinkingModel.customEvent (m : RelinkingModel) (response : StatusUpdateResponse) :
    RelinkingModel × List Effect :=
  if response.m_row < 0 ∨ response.m_row ≥ (m.m_items.length : Int) then (m, [])
  else
    match m.m_items.get? response.m_row.toNat with
    | none => (m, [])
    | some item =>
      let item1 :=
        if item.uncommittedPath = response.m_path then
          { item with uncommittedStatus := response.m_status }
        else item
      let item2 :=
        if item1.committedPath = response.m_path then
          { item1 with committedStatus := response.m_status }
        else item1
      ({ m with m_items := m.m_items.set response.m_row.toNat item2 },
        [Effect.dataChanged response.m_row response.m_row])

/-! ## The worker and the whole system -/

/-- Lines 383-385 of `StatusUpdateThread::run`, executed under the mutex when the
thread is not exiting and the queue is not empty: the front task is copied, its
path becomes the path being processed and the task is popped. -/
def StatusUpdateThread.takeTask (t : StatusUpdateThread) : Option (Task × StatusUpdateThread) :=
  if t.m_exiting then none
  else
    match t.m_tasks with
    | [] => none
    | task :: rest => some (task, { t with m_pathBeingProcessed := task.path, m_tasks := rest })

/-- Lines 390-391 of `StatusUpdateThread::run`: the response built from the task
and the answer of `QFile::exists`. -/
def StatusUpdateThread.responseFor (task : Task) (fileExists : Bool) : StatusUpdateResponse :=
  ⟨task.path, task.row, if fileExists then Status.Exists else Status.Missing⟩

/-- Line 395 of `StatusUpdateThread::run`: `m_pathBeingProcessed.clear()`. -/
def StatusUpdateThread.clearPathBeingProcessed (t : StatusUpdateThread) : StatusUpdateThread :=
  { t with m_pathBeingProcessed := [] }

/-- Where the worker stands in `StatusUpdateThread::run`. -/
inductive WorkerPhase where
  /-- At the head of the loop, holding or waiting for the mutex. -/
  | waiting
  /-- In the unlocked block, before `postEvent`, with the popped task. -/
  | checking (task : Task)
  /-- After `postEvent`, before the mutex is taken again. -/
  | posted
  deriving DecidableEq

/-- The registry, the position of its worker thread and the events posted to the
registry that its event loop has not delivered yet (oldest first). -/
structure System where
  model : RelinkingModel
  worker : WorkerPhase
  events : List StatusUpdateResponse
  deriving DecidableEq

/-- A freshly constructed registry. -/
def System.init : System :=
  { model := RelinkingModel.init, worker := WorkerPhase.waiting, events := [] }

/-- The atomic steps of the system: the public operations called on the owner
thread, the three sections of the worker loop, and the delivery of a posted event
to `customEvent`. -/
inductive Action where
  | addPath (path : RelinkablePath)
  | replacePrefix (pfx replacement : QString) (type : PathType)
  | commitChanges
  | rollbackChanges
  | workerTake
  | workerCheck (fileExists : Bool)
  | workerClear
  | deliverEvent
  deriving DecidableEq

/-- One step of the system; `none` when the step is not enabled. -/
def System.step (s : System) : Action → Option System
  | Action.addPath path => some { s with model := (s.model.addPath path).1 }
  | Action.replacePrefix pfx replacement type =>
    some { s with model := (s.model.replacePrefix pfx replacement type).1 }
  | Action.commitChanges => some { s with model := s.model.commitChanges.1 }
  | Action.rollbackChanges => some { s with model := s.model.rollbackChanges.1 }
  | Action.workerTake =>
    match s.worker with
    | WorkerPhase.waiting =>
      if s.model.m_statusUpdateThread.isRunning then
        match s.model.m_statusUpdateThread.takeTask with
        | some (task, th) =>
          some { s with
            model := { s.model with m_statusUpdateThread := th }
            worker := WorkerPhase.checking task }
        | none => none
      else none
    | _ => none
  | Action.workerCheck fileExists =>
    match s.worker with
    | WorkerPhase.checking task =>
      some { s with
        events := s.events ++ [StatusUpdateThread.responseFor task fileExists]
        worker := WorkerPhase.posted }
    | _ => none
  | Action.workerClear =>
    match s.worker with
    | WorkerPhase.posted =>
      some { s with
        model := { s.model with
          m_statusUpdateThread := s.model.m_statusUpdateThread.clearPathBeingProcessed }
        worker := WorkerPhase.waiting }
    | _ => none
  | Action.deliverEvent =>
    match s.events with
    | [] => none
    | response :: rest =>
      some { s with model := (s.model.customEvent response).1, events := rest }

/-- Runs a sequence of steps from `s`; `none` when one of them is not enabled. -/
def System.run (s : System) : List Action → Option System
  | [] => some s
  | a :: rest =>
    match s.step a with
    | some s1 => System.run s1 rest
    | none => none

/-- The states the system can be in: those a sequence of steps leads to from a
freshly constructed registry. -/
def System.Reachable (s : System) : Prop :=
  ∃ actions : List Action, System.run System.init actions = some s

/-- One pass of the loop of `StatusUpdateThread::run` that finds a task (lines
383-395): the front task is taken, `QFile::exists` is asked about its path, the
response is posted and `m_pathBeingProcessed` is cleared. `none` when the thread
is exiting or the queue is empty. -/
def StatusUpdateThread.runIteration (fileExists : QString → Bool) (t : StatusUpdateThread) :
    Option (StatusUpdateThread × StatusUpdateResponse) :=
  match t.takeTask with
  | none => none
  | some (task, t1) =>
    some (t1.clearPathBeingProcessed,
      StatusUpdateThread.responseFor task (fileExists task.path))

/-- The loop of `StatusUpdateThread::run` with no request arriving meanwhile, for
at most `fuel` passes: it stops when the queue is empty, where the worker waits.
Returns the thread and the responses posted, oldest first. -/
def StatusUpdateThread.run (fileExists : QString → Bool) :
    Nat → StatusUpdateThread → StatusUpdateThread × List StatusUpdateResponse
  | 0, t => (t, [])
  | fuel + 1, t =>
    match t.runIteration fileExists with
    | none => (t, [])
    | some (t1, response) =>
      ((StatusUpdateThread.run fileExists fuel t1).1,
        response :: (StatusUpdateThread.run fileExists fuel t1).2)

/-- The registry after its worker has run for at most `fuel` passes and every
response posted has been handed to `customEvent`, in the order of posting. -/
def RelinkingModel.processProbes (m : RelinkingModel) (fileExists : QString → Bool)
    (fuel : Nat) : RelinkingModel :=
  (m.m_statusUpdateThread.run fileExists fuel).2.foldl
    (fun acc response => (acc.customEvent response).1)
    { m with m_statusUpdateThread := (m.m_statusUpdateThread.run fileExists fuel).1 }

/-- The tasks that `addPath` queues for the paths of a list added from row `row`
on. -/
def probeTasks : Nat → List RelinkablePath → List Task
  | _, [] => []
  | row, path :: rest => ⟨path.normalizedPath, row⟩ :: probeTasks (row + 1) rest

/-- The entry of a path whose two statuses report what the filesystem says. -/
def Item.probed (fileExists : QString → Bool) (path : RelinkablePath) : Item :=
  { origPath := path.normalizedPath
    committedPath := path.normalizedPath
    uncommittedPath := path.normalizedPath
    type := path.type
    committedStatus := if fileExists path.normalizedPath then Status.Exists else Status.Missing
    uncommittedStatus :=
      if fileExists path.normalizedPath then Status.Exists else Status.Missing }

/-- A step of the probing scenario: an `addPath` call, one of the three sections of
the worker loop, or the delivery of a posted response. -/
inductive ProbeStep where
  | addPath (path : RelinkablePath)
  | workerTake
  | workerCheck
  | workerClear
  | deliverEvent
  deriving DecidableEq

/-- The action of the system that a step of the scenario stands for in state `s`:
the check of the worker reports what `QFile::exists` says about the path of the
task being checked. -/
def ProbeStep.toAction (fileExists : QString → Bool) (s : System) : ProbeStep → Action
  | ProbeStep.addPath path => Action.addPath path
  | ProbeStep.workerTake => Action.workerTake
  | ProbeStep.workerCheck =>
    Action.workerCheck
      (match s.worker with
        | WorkerPhase.checking task => fileExists task.path
        | _ => false)
  | ProbeStep.workerClear => Action.workerClear
  | ProbeStep.deliverEvent => Action.deliverEvent

/-- Runs the steps of a probing scenario from `s`, in any interleaving of the
owner thread and the worker; `none` when a step is not enabled. -/
def System.runProbes (fileExists : QString → Bool) (s : System) :
    List ProbeStep → Option System
  | [] => some s
  | step :: rest =>
    match s.step (step.toAction fileExists s) with
    | some s1 => System.runProbes fileExists s1 rest
    | none => none

/-- The paths that the steps of a scenario add, in the order of the calls. -/
def addedPaths : List ProbeStep → List RelinkablePath
  | [] => []
  | ProbeStep.addPath path :: rest => path :: addedPaths rest
  | _ :: rest => addedPaths rest

/-- The state of a probing scenario in which the paths `paths` were added so far:
every queued task, the task being checked and every posted response belongs to
the row of its path, and the probe of every row is queued, being checked, posted,
or already applied to both statuses of the entry. -/
structure ProbeInv (fileExists : QString → Bool) (paths : List RelinkablePath)
    (s : System) : Prop where
  tracked : s.model.m_origPathSet = paths.map (fun path => path.normalizedPath)
  exiting : s.model.m_statusUpdateThread.m_exiting = false
  inProgress : s.model.m_statusUpdateThread.m_pathBeingProcessed = [] ∨
    s.model.m_statusUpdateThread.m_pathBeingProcessed
      ∈ paths.map (fun path => path.normalizedPath)
  tasks : ∀ task ∈ s.model.m_statusUpdateThread.m_tasks,
    ∃ (i : Nat) (path : RelinkablePath),
      paths[i]? = some path ∧ task = ⟨path.normalizedPath, (i : Int)⟩
  checking : ∀ task : Task, s.worker = WorkerPhase.checking task →
    ∃ (i : Nat) (path : RelinkablePath),
      paths[i]? = some path ∧ task = ⟨path.normalizedPath, (i : Int)⟩
  events : ∀ response ∈ s.events,
    ∃ (i : Nat) (path : RelinkablePath),
      paths[i]? = some path ∧
        response = StatusUpdateThread.responseFor ⟨path.normalizedPath, (i : Int)⟩
          (fileExists path.normalizedPath)
  length : s.model.m_items.length = paths.length
  rows : ∀ (i : Nat) (path : RelinkablePath), paths[i]? = some path →
    ∃ item : Item,
      s.model.m_items[i]? = some item ∧
        item.origPath = path.normalizedPath ∧ item.committedPath = path.normalizedPath ∧
        item.uncommittedPath = path.normalizedPath ∧ item.type = path.type ∧
        ((⟨path.normalizedPath, (i : Int)⟩ : Task) ∈ s.model.m_statusUpdateThread.m_tasks ∨
          s.worker = WorkerPhase.checking ⟨path.normalizedPath, (i : Int)⟩ ∨
          StatusUpdateThread.responseFor ⟨path.normalizedPath, (i : Int)⟩
            (fileExists path.normalizedPath) ∈ s.events ∨
          item = Item.probed fileExists path)

/-- The path of the probe in progress: the path of the task that the worker took
and has not finished with by clearing `m_pathBeingProcessed`; `none` when the
worker is at the head of its loop. -/
def System.pathInProgress (s : System) : Option QString :=
  match s.worker with
  | WorkerPhase.waiting => none
  | WorkerPhase.checking task => some task.path
  | WorkerPhase.posted => some s.model.m_statusUpdateThread.m_pathBeingProcessed

/-- The queue agrees with the position of the worker: stop was not requested, and
`m_pathBeingProcessed` is the path of the probe in progress, or empty when there
is none. -/
def System.WorkerConsistent (s : System) : Prop :=
  s.model.m_statusUpdateThread.m_exiting = false ∧
    s.model.m_statusUpdateThread.m_pathBeingProcessed = s.pathInProgress.getD []

/-! ## What the loops do to one entry -/

/-- One pass of the loop body of `replacePrefix` on an entry: the rewrite of
lines 159-176 and, when the entry was modified, the reset of its uncommitted
status by `requestStatusUpdate`. -/
def replacePrefixEntry (pfx slashTerminatedPrefix replacement : QString) (type : PathType)
    (item : Item) : Item :=
  if (replacePrefixItem pfx slashTerminatedPrefix replacement type item).2 then
    { (replacePrefixItem pfx slashTerminatedPrefix replacement type item).1 with
      uncommittedStatus := Status.StatusUpdatePending }
  else item

/-- One pass of the loop body of `commitChanges` on an entry. -/
def commitEntry (item : Item) : Item :=
  if item.committedPath ≠ item.uncommittedPath then
    { item with
      committedPath := item.uncommittedPath, committedStatus := item.uncommittedStatus }
  else item

/-- One pass of the loop body of `commitChanges` on the relinker being built. -/
def commitMapping (newRelinker : Relinker) (item : Item) : Relinker :=
  if item.committedPath ≠ item.uncommittedPath then
    newRelinker.addMapping item.origPath item.uncommittedPath
  else newRelinker

/-- One pass of the loop body of `rollbackChanges` on an entry. -/
def rollbackEntry (item : Item) : Item :=
  if item.uncommittedPath ≠ item.committedPath then
    { item with
      uncommittedPath := item.committedPath, uncommittedStatus := item.committedStatus }
  else item

/-- What `customEvent` does to the entry at the row of the response (lines
303-308). -/
def customEventEntry (response : StatusUpdateResponse) (item : Item) : Item :=
  let item1 :=
    if item.uncommittedPath = response.m_path then
      { item with uncommittedStatus := response.m_status }
    else item
  if item1.committedPath = response.m_path then
    { item1 with committedStatus := response.m_status }
  else item1

/-- The flag is sound: when it is clear no entry has a staged edit. -/
def RelinkingModel.FlagSound (m : RelinkingModel) : Prop :=
  m.m_haveUncommittedChanges = false →
    ∀ item ∈ m.m_items, item.uncommittedPath = item.committedPath

/-! ## Sequences of calls -/

/-- The set of tracked original paths lists exactly the original paths of the
entries, in row order and without repetition. -/
def RelinkingModel.OrigPathsTracked (m : RelinkingModel) : Prop :=
  m.m_origPathSet = m.m_items.map (fun item => item.origPath) ∧ m.m_origPathSet.Nodup


/-- A sequence of `addPath` calls. -/
def RelinkingModel.addPaths (m : RelinkingModel) (paths : List RelinkablePath) :
    RelinkingModel :=
  paths.foldl (fun acc path => (acc.addPath path).1) m

/-- A staged edit: a `replacePrefix` call, or a probe result handed to
`customEvent`. -/
inductive Edit where
  | replacePrefix (pfx replacement : QString) (type : PathType)
  | probeResult (response : StatusUpdateResponse)
  deriving DecidableEq

/-- The registry after one staged edit. -/
def RelinkingModel.applyEdit (m : RelinkingModel) : Edit → RelinkingModel
  | Edit.replacePrefix pfx replacement type => (m.replacePrefix pfx replacement type).1
  | Edit.probeResult response => (m.customEvent response).1

/-- The registry after a sequence of staged edits. -/
def RelinkingModel.applyEdits (m : RelinkingModel) (edits : List Edit) : RelinkingModel :=
  edits.foldl RelinkingModel.applyEdit m

/-- A call on the registry from its owner thread: one of the four operations that
change it, or the application of a probe result by `customEvent`. -/
inductive Call where
  | addPath (path : RelinkablePath)
  | replacePrefix (pfx replacement : QString) (type : PathType)
  | commitChanges
  | rollbackChanges
  | probeResult (response : StatusUpdateResponse)
  deriving DecidableEq

/-- The registry after one call. -/
def RelinkingModel.applyCall (m : RelinkingModel) : Call → RelinkingModel
  | Call.addPath path => (m.addPath path).1
  | Call.replacePrefix pfx replacement type => (m.replacePrefix pfx replacement type).1
  | Call.commitChanges => m.commitChanges.1
  | Call.rollbackChanges => m.rollbackChanges.1
  | Call.probeResult response => (m.customEvent response).1

/-- The registry after a sequence of calls. -/
def RelinkingModel.applyCalls (m : RelinkingModel) (calls : List Call) : RelinkingModel :=
  calls.foldl RelinkingModel.applyCall m

/-- The row ranges of the `dataChanged` signals among the effects, in the order of
emission. -/
def dataChangedRanges : List Effect → List (Int × Int)
  | [] => []
  | Effect.dataChanged first last :: rest => (first, last) :: dataChangedRanges rest
  | _ :: rest => dataChangedRanges rest

/-! ## Example registries -/

/-- The registry after `/a/x.txt` (a file) and `/a` (a directory) were added, the
directory was relinked to `/b` and the change was committed. -/
def exampleCommitted : RelinkingModel :=
  (((RelinkingModel.init.addPaths
      [⟨"/a/x.txt".toList, PathType.File⟩, ⟨"/a".toList, PathType.Dir⟩]).replacePrefix
    "/a".toList "/b".toList PathType.Dir).1).commitChanges.1

/-- The registry `exampleCommitted` after the directory `/b` was relinked to `/c`
and the file `/c/x.txt` to `/d.txt`, the existence of `/c/x.txt` having been
reported in between. -/
def exampleStaged : RelinkingModel :=
  exampleCommitted.applyEdits
    [Edit.replacePrefix "/b".toList "/c".toList PathType.Dir,
      Edit.probeResult ⟨"/c/x.txt".toList, 0, Status.Exists⟩,
      Edit.replacePrefix "/c/x.txt".toList "/d.txt".toList PathType.File]

/-- The steps that lead to `exampleReverted`. -/
def exampleRevertedActions : List Action :=
  [Action.addPath ⟨"/a".toList, PathType.File⟩,
    Action.replacePrefix "/a".toList "/b".toList PathType.File,
    Action.commitChanges,
    Action.replacePrefix "/b".toList "/c".toList PathType.File,
    Action.replacePrefix "/c".toList "/b".toList PathType.File]

/-- The system after the file `/a` was added, relinked to `/b` and committed, then
relinked to `/c` and relinked back to `/b`. -/
def exampleReverted : System :=
  (System.run System.init exampleRevertedActions).getD System.init

/-- The steps that lead to `exampleProbedStaged`. -/
def exampleProbedStagedActions : List Action :=
  [Action.addPath ⟨"/a".toList, PathType.File⟩,
    Action.workerTake, Action.workerCheck true, Action.workerClear, Action.deliverEvent,
    Action.replacePrefix "/a".toList "/b".toList PathType.File]

/-- The system after the file `/a` was added and found to exist by the worker, then
relinked to `/b`. -/
def exampleProbedStaged : System :=
  (System.run System.init exampleProbedStagedActions).getD System.init

/-- The steps that lead to `exampleProbed`. -/
def exampleProbedActions : List Action :=
  exampleProbedStagedActions ++ [Action.replacePrefix "/b".toList "/a".toList PathType.File]

/-- The system `exampleProbedStaged` after `/b` was relinked back to `/a`. -/
def exampleProbed : System :=
  (System.run System.init exampleProbedActions).getD System.init

/-- The steps that lead to `exampleAdded`. -/
def exampleAddedActions : List Action :=
  [Action.addPath ⟨"/a/x.txt".toList, PathType.File⟩,
    Action.addPath ⟨"/a".toList, PathType.Dir⟩]

/-- The system after the file `/a/x.txt` and the directory `/a` were added. -/
def exampleAdded : System :=
  (System.run System.init exampleAddedActions).getD System.init

/-- The registry after the directories `/a/sub` and `/a` and the file `/a/x.txt`
were added. -/
def exampleDirs : RelinkingModel :=
  RelinkingModel.init.addPaths
    [⟨"/a/sub".toList, PathType.Dir⟩, ⟨"/a".toList, PathType.Dir⟩,
      ⟨"/a/x.txt".toList, PathType.File⟩]

/-- The steps that lead to `exampleChecking`. -/
def exampleCheckingActions : List Action :=
  [Action.addPath ⟨"/a".toList, PathType.File⟩, Action.addPath ⟨"/b".toList, PathType.Dir⟩,
    Action.workerTake]

/-- The system after the file `/a` and the directory `/b` were added and the worker
took a task: the probe of `/a` is in progress and the task of `/b` is queued. -/
def exampleChecking : System :=
  (System.run System.init exampleCheckingActions).getD System.init

/-- The registry after the files `/a/x`, `/a/y`, `/b/z` and `/a/w` were added. -/
def exampleRuns : RelinkingModel :=
  RelinkingModel.init.addPaths
    [⟨"/a/x".toList, PathType.File⟩, ⟨"/a/y".toList, PathType.File⟩,
      ⟨"/b/z".toList, PathType.File⟩, ⟨"/a/w".toList, PathType.File⟩]

/-- The filesystem of the scenario of the specification: only `/docs/a.txt`
exists. -/
def exampleFileExists (path : QString) : Bool := decide (path = "/docs/a.txt".toList)

/-- The steps that lead to `exampleScenario`: the worker takes the task of the first
path before the second path is added. -/
def exampleScenarioSteps : List ProbeStep :=
  [ProbeStep.addPath ⟨"/docs/a.txt".toList, PathType.File⟩, ProbeStep.workerTake,
    ProbeStep.addPath ⟨"/docs/sub".toList, PathType.Dir⟩, ProbeStep.workerCheck,
    ProbeStep.workerClear, ProbeStep.deliverEvent, ProbeStep.workerTake,
    ProbeStep.workerCheck, ProbeStep.workerClear, ProbeStep.deliverEvent]

/-- The system after the scenario of the specification: the file `/docs/a.txt` and
the directory `/docs/sub` were added, both probes ran and both results were
delivered. -/
def exampleScenario : System :=
  (System.runProbes exampleFileExists System.init exampleScenarioSteps).getD System.init

end Relinking

/-! # Theorems -/

namespace Relinking

/-! ## addPath -/

theorem addPath_of_mem (m : RelinkingModel) (path : RelinkablePath)
    (h : path.normalizedPath ∈ m.m_origPathSet) : m.addPath path = (m, []) := by
  simp [RelinkingModel.addPath, origPathSetInsert, h]

theorem addPath_of_not_mem (m : RelinkingModel) (path : RelinkablePath)
    (h : path.normalizedPath ∉ m.m_origPathSet) :
    m.addPath path =
      ({ m with
          m_origPathSet := m.m_origPathSet ++ [path.normalizedPath]
          m_items := m.m_items ++ [Item.ofPath path]
          m_statusUpdateThread :=
            m.m_statusUpdateThread.requestStatusUpdate path.normalizedPath m.m_items.length },
        [Effect.rowsInserted m.m_items.length m.m_items.length,
          Effect.statusUpdateRequested path.normalizedPath m.m_items.length]) := by
  simp [RelinkingModel.addPath, origPathSetInsert, h, RelinkingModel.requestStatusUpdate,
    requestStatusUpdateItem, Item.ofPath]

theorem init_origPathsTracked : RelinkingModel.init.OrigPathsTracked := by
  simp [RelinkingModel.OrigPathsTracked, RelinkingModel.init]

theorem addPath_origPathsTracked (m : RelinkingModel) (path : RelinkablePath)
    (hm : m.OrigPathsTracked) : (m.addPath path).1.OrigPathsTracked := by
  by_cases h : path.normalizedPath ∈ m.m_origPathSet
  · rw [addPath_of_mem m path h]; exact hm
  · rw [addPath_of_not_mem m path h]
    obtain ⟨h1, h2⟩ := hm
    refine ⟨?_, ?_⟩
    · simp [h1, Item.ofPath]
    · exact List.Nodup.append h2 (List.nodup_singleton _) (by simpa using h)

theorem addPath_mem_origPathSet (m : RelinkingModel) (path : RelinkablePath) (x : QString) :
    x ∈ (m.addPath path).1.m_origPathSet ↔ x ∈ m.m_origPathSet ∨ x = path.normalizedPath := by
  by_cases h : path.normalizedPath ∈ m.m_origPathSet
  · rw [addPath_of_mem m path h]
    constructor
    · exact fun hx => Or.inl hx
    · rintro (hx | hx)
      · exact hx
      · exact hx ▸ h
  · rw [addPath_of_not_mem m path h]; simp

theorem addPaths_origPathsTracked (paths : List RelinkablePath) :
    ∀ m : RelinkingModel, m.OrigPathsTracked →
      (m.addPaths paths).OrigPathsTracked ∧
      ∀ x, x ∈ (m.addPaths paths).m_origPathSet ↔
        x ∈ m.m_origPathSet ∨ x ∈ paths.map (fun path => path.normalizedPath) := by
  induction paths with
  | nil => intro m hm; simpa [RelinkingModel.addPaths] using hm
  | cons path rest ih =>
    intro m hm
    have step := ih (m.addPath path).1 (addPath_origPathsTracked m path hm)
    refine ⟨step.1, fun x => ?_⟩
    have hx := step.2 x
    rw [addPath_mem_origPathSet] at hx
    simp only [RelinkingModel.addPaths, List.foldl_cons, List.map_cons, List.mem_cons] at hx ⊢
    rw [hx]; tauto

/-- C1 (uniqueness). After any sequence of `addPath` calls on a fresh registry the
number of entries is the number of distinct normalized paths of the sequence, the
original paths of the entries are pairwise distinct, and an `addPath` of a path
whose normalized form is already the original path of an entry returns the
registry unchanged, with no signal emitted and no probe requested. -/
theorem addPaths_unique (paths : List RelinkablePath) :
    (RelinkingModel.init.addPaths paths).m_items.length
        = (paths.map (fun path => path.normalizedPath)).dedup.length ∧
      ((RelinkingModel.init.addPaths paths).m_items.map (fun item => item.origPath)).Nodup ∧
      ∀ path : RelinkablePath,
        path.normalizedPath ∈
            (RelinkingModel.init.addPaths paths).m_items.map (fun item => item.origPath) →
          (RelinkingModel.init.addPaths paths).addPath path
            = (RelinkingModel.init.addPaths paths, []) := by
  obtain ⟨⟨hset, hnodup⟩, hmem⟩ :=
    addPaths_origPathsTracked paths RelinkingModel.init init_origPathsTracked
  have hnodup2 : ((RelinkingModel.init.addPaths paths).m_items.map
      (fun item => item.origPath)).Nodup := hset ▸ hnodup
  refine ⟨?_, hnodup2, fun path hp => addPath_of_mem _ path (hset ▸ hp)⟩
  have hfin : ((RelinkingModel.init.addPaths paths).m_items.map
      (fun item => item.origPath)).toFinset
        = (paths.map (fun path => path.normalizedPath)).toFinset := by
    ext x
    rw [List.mem_toFinset, List.mem_toFinset, ← hset, hmem x]
    simp [RelinkingModel.init]
  have hcard := congrArg Finset.card hfin
  rw [List.toFinset_card_of_nodup hnodup2, List.card_toFinset, List.length_map] at hcard
  exact hcard

/-- C1, at the sequence `/a`, `/b`, `/a`: two entries, and a further `addPath` of
`/b` is rejected. -/
theorem addPaths_unique_witness :
    (RelinkingModel.init.addPaths
        [⟨"/a".toList, PathType.File⟩, ⟨"/b".toList, PathType.Dir⟩,
          ⟨"/a".toList, PathType.Dir⟩]).m_items.length = 2 ∧
      (RelinkingModel.init.addPaths
          [⟨"/a".toList, PathType.File⟩, ⟨"/b".toList, PathType.Dir⟩,
            ⟨"/a".toList, PathType.Dir⟩]).addPath ⟨"/b".toList, PathType.File⟩
        = (RelinkingModel.init.addPaths
            [⟨"/a".toList, PathType.File⟩, ⟨"/b".toList, PathType.Dir⟩,
              ⟨"/a".toList, PathType.Dir⟩], []) :=
  ⟨by decide,
    (addPaths_unique [⟨"/a".toList, PathType.File⟩, ⟨"/b".toList, PathType.Dir⟩,
      ⟨"/a".toList, PathType.Dir⟩]).2.2 ⟨"/b".toList, PathType.File⟩ (by decide)⟩

/-- C2 (postcondition of an accepted `addPath`). When the normalized path is not
in the set of tracked original paths, `addPath` appends one entry at row
`m_items.size()` with its three paths equal to the normalized path, the given
kind and both statuses pending, leaves the earlier entries, the relinker and the
flag as they were, and emits the row insertion followed by exactly one probe
request, for the normalized path and the new row, which is also what the task
queue receives. -/
theorem addPath_appends (m : RelinkingModel) (path : RelinkablePath)
    (h : path.normalizedPath ∉ m.m_origPathSet) :
    (m.addPath path).1.m_items
        = m.m_items ++
          [{ origPath := path.normalizedPath, committedPath := path.normalizedPath,
             uncommittedPath := path.normalizedPath, type := path.type,
             committedStatus := Status.StatusUpdatePending,
             uncommittedStatus := Status.StatusUpdatePending }] ∧
      (m.addPath path).2
        = [Effect.rowsInserted m.m_items.length m.m_items.length,
            Effect.statusUpdateRequested path.normalizedPath m.m_items.length] ∧
      (m.addPath path).1.m_statusUpdateThread
        = m.m_statusUpdateThread.requestStatusUpdate path.normalizedPath m.m_items.length ∧
      (m.addPath path).1.m_origPathSet = m.m_origPathSet ++ [path.normalizedPath] ∧
      (m.addPath path).1.m_relinker = m.m_relinker ∧
      (m.addPath path).1.m_haveUncommittedChanges = m.m_haveUncommittedChanges := by
  rw [addPath_of_not_mem m path h]
  simp [Item.ofPath]

/-- C2, at the second `addPath` of a registry that tracks `/docs/a.txt`. -/
theorem addPath_appends_witness :
    ((RelinkingModel.init.addPath ⟨"/docs/a.txt".toList, PathType.File⟩).1.addPath
        ⟨"/docs/sub".toList, PathType.Dir⟩).1.m_items
      = (RelinkingModel.init.addPath ⟨"/docs/a.txt".toList, PathType.File⟩).1.m_items ++
          [{ origPath := "/docs/sub".toList, committedPath := "/docs/sub".toList,
             uncommittedPath := "/docs/sub".toList, type := PathType.Dir,
             committedStatus := Status.StatusUpdatePending,
             uncommittedStatus := Status.StatusUpdatePending }] ∧
    ((RelinkingModel.init.addPath ⟨"/docs/a.txt".toList, PathType.File⟩).1.addPath
        ⟨"/docs/sub".toList, PathType.Dir⟩).2
      = [Effect.rowsInserted 1 1, Effect.statusUpdateRequested "/docs/sub".toList 1] :=
  have h := addPath_appends
    (RelinkingModel.init.addPath ⟨"/docs/a.txt".toList, PathType.File⟩).1
    ⟨"/docs/sub".toList, PathType.Dir⟩ (by decide)
  ⟨h.1, h.2.1⟩

/-! ## checkForMerges -/

theorem adjacent_find_eq_none_iff :
    ∀ l : List QString, adjacent_find l = none ↔ l.Chain' (fun a b => a ≠ b)
  | [] => by simp [adjacent_find]
  | [a] => by simp [adjacent_find]
  | a :: b :: rest => by
    have ih := adjacent_find_eq_none_iff (b :: rest)
    by_cases h : a = b
    · simp [adjacent_find, h]
    · simp [adjacent_find, h, ih]

theorem nodup_of_sorted_of_chain :
    ∀ l : List QString, l.Sorted (fun a b => a ≤ b) → l.Chain' (fun a b => a ≠ b) → l.Nodup
  | [], _, _ => List.nodup_nil
  | [a], _, _ => List.nodup_singleton a
  | a :: b :: rest, hs, hc => by
    have ih := nodup_of_sorted_of_chain (b :: rest) hs.of_cons hc.tail
    rw [List.chain'_cons] at hc
    have hs1 := List.sorted_cons.1 hs
    have hs2 := List.sorted_cons.1 hs1.2
    refine List.nodup_cons.2 ⟨fun hmem => ?_, ih⟩
    have hab : a < b := lt_of_le_of_ne (hs1.1 b (List.mem_cons_self _ _)) hc.1
    rcases List.mem_cons.1 hmem with h | h
    · exact hc.1 h
    · exact absurd (hs2.1 a h) (not_le.2 hab)

theorem adjacent_find_sortPaths (paths : List QString) :
    (adjacent_find (sortPaths paths)).isSome = true ↔ ¬ paths.Nodup := by
  have hperm : List.Perm (sortPaths paths) paths := List.perm_insertionSort _ paths
  have hsorted : (sortPaths paths).Sorted (fun a b => a ≤ b) :=
    List.sorted_insertionSort _ paths
  rw [← hperm.nodup_iff, ← Option.ne_none_iff_isSome, Ne, adjacent_find_eq_none_iff]
  constructor
  · exact fun h hn => h (List.Pairwise.chain' hn)
  · exact fun h hc => h (nodup_of_sorted_of_chain _ hsorted hc)

theorem not_nodup_iff_exists_rows {α : Type} (l : List α) :
    ¬ l.Nodup ↔
      ∃ (i j : Nat) (hi : i < l.length) (hj : j < l.length), i ≠ j ∧ l[i] = l[j] := by
  constructor
  · intro h
    by_contra hne
    apply h
    rw [List.nodup_iff_injective_getElem]
    rintro ⟨i, hi⟩ ⟨j, hj⟩ hij
    by_contra hneq
    exact hne ⟨i, j, hi, hj, fun e => hneq (Fin.ext e), hij⟩
  · rintro ⟨i, j, hi, hj, hne, heq⟩ hn
    exact hne (hn.getElem_inj_iff.1 heq)

/-- C3 (merge detection). `checkForMerges` returns true exactly when two
different rows hold entries with the same uncommitted path; it returns true for
the uncommitted paths `/a/x`, `/a/y`, `/a/x` and false for `/a/x`, `/a/y`, `/a/z`. -/
theorem checkForMerges_iff :
    (∀ m : RelinkingModel,
      m.checkForMerges = true ↔
        ∃ (i j : Nat) (hi : i < m.m_items.length) (hj : j < m.m_items.length),
          i ≠ j ∧ m.m_items[i].uncommittedPath = m.m_items[j].uncommittedPath) ∧
    (∀ m : RelinkingModel,
      m.m_items.map (fun item => item.uncommittedPath)
          = ["/a/x".toList, "/a/y".toList, "/a/x".toList] →
        m.checkForMerges = true) ∧
    (∀ m : RelinkingModel,
      m.m_items.map (fun item => item.uncommittedPath)
          = ["/a/x".toList, "/a/y".toList, "/a/z".toList] →
        m.checkForMerges = false) := by
  refine ⟨fun m => ?_, fun m h => ?_, fun m h => ?_⟩
  · unfold RelinkingModel.checkForMerges
    rw [adjacent_find_sortPaths, not_nodup_iff_exists_rows]
    constructor
    · rintro ⟨i, j, hi, hj, hne, heq⟩
      rw [List.length_map] at hi hj
      exact ⟨i, j, hi, hj, hne, by simpa using heq⟩
    · rintro ⟨i, j, hi, hj, hne, heq⟩
      exact ⟨i, j, by simpa using hi, by simpa using hj, hne, by simpa using heq⟩
  · unfold RelinkingModel.checkForMerges
    rw [h]; decide
  · unfold RelinkingModel.checkForMerges
    rw [h]; decide

/-! ## The loops, entry by entry -/

theorem replacePrefixItem_not_modified (pfx slashTerminatedPrefix replacement : QString)
    (type : PathType) (item : Item)
    (h : ¬ (replacePrefixItem pfx slashTerminatedPrefix replacement type item).2 = true) :
    (replacePrefixItem pfx slashTerminatedPrefix replacement type item).1 = item := by
  unfold replacePrefixItem at h ⊢
  split_ifs at h ⊢ <;> simp_all

theorem replacePrefixLoop_items (pfx slashTerminatedPrefix replacement : QString)
    (type : PathType) :
    ∀ (items : List Item) (row rowspanBegin : Int) (flag : Bool) (th : StatusUpdateThread),
      (replacePrefixLoop pfx slashTerminatedPrefix replacement type items row rowspanBegin
          flag th).items
        = items.map (replacePrefixEntry pfx slashTerminatedPrefix replacement type)
  | [], _, _, _, _ => rfl
  | item :: rest, row, rowspanBegin, flag, th => by
    simp only [replacePrefixLoop, List.map_cons, replacePrefixEntry]
    split_ifs with h1 h2 h3 <;>
      first
      | (simp [replacePrefixLoop_items pfx slashTerminatedPrefix replacement type rest,
          requestStatusUpdateItem]; done)
      | simp [replacePrefixLoop_items pfx slashTerminatedPrefix replacement type rest,
          replacePrefixItem_not_modified _ _ _ _ _ h1]

theorem replacePrefixLoop_flag (pfx slashTerminatedPrefix replacement : QString)
    (type : PathType) :
    ∀ (items : List Item) (row rowspanBegin : Int) (flag : Bool) (th : StatusUpdateThread),
      (replacePrefixLoop pfx slashTerminatedPrefix replacement type items row rowspanBegin
          flag th).haveUncommittedChanges
        = (flag || items.any
            (fun item => (replacePrefixItem pfx slashTerminatedPrefix replacement type item).2))
  | [], _, _, _, _ => by simp [replacePrefixLoop]
  | item :: rest, row, rowspanBegin, flag, th => by
    simp only [replacePrefixLoop, List.any_cons]
    split_ifs with h1 h2 h3 <;>
      simp [replacePrefixLoop_flag pfx slashTerminatedPrefix replacement type rest, h1]

theorem replacePrefix_items (m : RelinkingModel) (pfx replacement : QString) (type : PathType) :
    (m.replacePrefix pfx replacement type).1.m_items
      = m.m_items.map (replacePrefixEntry pfx (ensureEndsWithSlash pfx) replacement type) := by
  simp [RelinkingModel.replacePrefix, replacePrefixLoop_items]

theorem replacePrefix_flag (m : RelinkingModel) (pfx replacement : QString) (type : PathType) :
    (m.replacePrefix pfx replacement type).1.m_haveUncommittedChanges
      = (m.m_haveUncommittedChanges || m.m_items.any (fun item =>
          (replacePrefixItem pfx (ensureEndsWithSlash pfx) replacement type item).2)) := by
  simp [RelinkingModel.replacePrefix, replacePrefixLoop_flag]

theorem replacePrefix_relinker (m : RelinkingModel) (pfx replacement : QString)
    (type : PathType) :
    (m.replacePrefix pfx replacement type).1.m_relinker = m.m_relinker := rfl

theorem commitLoop_items :
    ∀ (items : List Item) (row rowspanBegin : Int) (newRelinker : Relinker),
      (commitLoop items row rowspanBegin newRelinker).items = items.map commitEntry
  | [], _, _, _ => rfl
  | item :: rest, row, rowspanBegin, newRelinker => by
    simp only [commitLoop, List.map_cons, commitEntry]
    split_ifs with h1 h2 <;> simp [commitLoop_items rest]

theorem commitLoop_newRelinker :
    ∀ (items : List Item) (row rowspanBegin : Int) (newRelinker : Relinker),
      (commitLoop items row rowspanBegin newRelinker).newRelinker
        = items.foldl commitMapping newRelinker
  | [], _, _, _ => rfl
  | item :: rest, row, rowspanBegin, newRelinker => by
    simp only [commitLoop, List.foldl_cons, commitMapping]
    split_ifs with h1 h2 <;> simp [commitLoop_newRelinker rest]

theorem rollbackLoop_items :
    ∀ (items : List Item) (row rowspanBegin : Int),
      (rollbackLoop items row rowspanBegin).items = items.map rollbackEntry
  | [], _, _ => rfl
  | item :: rest, row, rowspanBegin => by
    simp only [rollbackLoop, List.map_cons, rollbackEntry]
    split_ifs with h1 h2 <;> simp [rollbackLoop_items rest]

theorem commitChanges_of_flag (m : RelinkingModel) (h : m.m_haveUncommittedChanges = true) :
    m.commitChanges.1
      = { m with
          m_items := m.m_items.map commitEntry
          m_relinker := m.m_items.foldl commitMapping Relinker.empty
          m_haveUncommittedChanges := false } := by
  simp [RelinkingModel.commitChanges, h, commitLoop_items, commitLoop_newRelinker,
    Relinker.swap]

theorem commitChanges_of_not_flag (m : RelinkingModel)
    (h : m.m_haveUncommittedChanges = false) : m.commitChanges = (m, []) := by
  simp [RelinkingModel.commitChanges, h]

theorem rollbackChanges_of_flag (m : RelinkingModel) (h : m.m_haveUncommittedChanges = true) :
    m.rollbackChanges.1
      = { m with m_items := m.m_items.map rollbackEntry, m_haveUncommittedChanges := false } := by
  simp [RelinkingModel.rollbackChanges, h, rollbackLoop_items]

theorem rollbackChanges_of_not_flag (m : RelinkingModel)
    (h : m.m_haveUncommittedChanges = false) : m.rollbackChanges = (m, []) := by
  simp [RelinkingModel.rollbackChanges, h]

/-! ## Staged edits and rollback -/

theorem map_set_of_get? {α β : Type} (f : α → β) :
    ∀ (l : List α) (i : Nat) (a x : α), l.get? i = some x → f a = f x →
      (l.set i a).map f = l.map f
  | [], _, _, _, h, _ => by simp at h
  | y :: l, 0, a, x, h, hf => by
    simp only [List.get?_cons_zero, Option.some.injEq] at h
    simp [hf, h]
  | y :: l, i + 1, a, x, h, hf => by
    simp only [List.get?_cons_succ] at h
    simp [map_set_of_get? f l i a x h hf]

theorem customEvent_committedPath (m : RelinkingModel) (response : StatusUpdateResponse) :
    (m.customEvent response).1.m_items.map (fun item => item.committedPath)
      = m.m_items.map (fun item => item.committedPath) := by
  unfold RelinkingModel.customEvent
  split_ifs with h
  · rfl
  · cases hget : m.m_items.get? response.m_row.toNat with
    | none => rfl
    | some item =>
      refine map_set_of_get? _ _ _ _ item hget ?_
      split_ifs <;> rfl

theorem customEvent_uncommittedPath (m : RelinkingModel) (response : StatusUpdateResponse) :
    (m.customEvent response).1.m_items.map (fun item => item.uncommittedPath)
      = m.m_items.map (fun item => item.uncommittedPath) := by
  unfold RelinkingModel.customEvent
  split_ifs with h
  · rfl
  · cases hget : m.m_items.get? response.m_row.toNat with
    | none => rfl
    | some item =>
      refine map_set_of_get? _ _ _ _ item hget ?_
      split_ifs <;> rfl

theorem customEvent_relinker (m : RelinkingModel) (response : StatusUpdateResponse) :
    (m.customEvent response).1.m_relinker = m.m_relinker := by
  unfold RelinkingModel.customEvent
  split_ifs with h
  · rfl
  · cases hget : m.m_items.get? response.m_row.toNat <;> rfl

theorem customEvent_flag (m : RelinkingModel) (response : StatusUpdateResponse) :
    (m.customEvent response).1.m_haveUncommittedChanges = m.m_haveUncommittedChanges := by
  unfold RelinkingModel.customEvent
  split_ifs with h
  · rfl
  · cases hget : m.m_items.get? response.m_row.toNat <;> rfl

theorem flagSound_iff (m : RelinkingModel) :
    m.FlagSound ↔
      (m.m_haveUncommittedChanges = false →
        m.m_items.map (fun item => item.uncommittedPath)
          = m.m_items.map (fun item => item.committedPath)) := by
  unfold RelinkingModel.FlagSound
  rw [List.map_inj_left]

theorem replacePrefixEntry_committedPath (pfx slashTerminatedPrefix replacement : QString)
    (type : PathType) (item : Item) :
    (replacePrefixEntry pfx slashTerminatedPrefix replacement type item).committedPath
      = item.committedPath := by
  unfold replacePrefixEntry replacePrefixItem
  split_ifs <;> rfl

theorem replacePrefix_committedPath (m : RelinkingModel) (pfx replacement : QString)
    (type : PathType) :
    (m.replacePrefix pfx replacement type).1.m_items.map (fun item => item.committedPath)
      = m.m_items.map (fun item => item.committedPath) := by
  rw [replacePrefix_items, List.map_map]
  exact List.map_congr_left (fun item _ => replacePrefixEntry_committedPath _ _ _ _ item)

theorem replacePrefix_flagSound (m : RelinkingModel) (pfx replacement : QString)
    (type : PathType) (hm : m.FlagSound) : (m.replacePrefix pfx replacement type).1.FlagSound := by
  intro hflag item hitem
  rw [replacePrefix_flag, Bool.or_eq_false_iff, List.any_eq_false] at hflag
  have hsame : (m.replacePrefix pfx replacement type).1.m_items = m.m_items := by
    rw [replacePrefix_items]
    refine (List.map_congr_left (fun it hit => ?_)).trans (List.map_id _)
    simp [replacePrefixEntry, hflag.2 it hit]
  rw [hsame] at hitem
  exact hm hflag.1 item hitem

theorem customEvent_flagSound (m : RelinkingModel) (response : StatusUpdateResponse)
    (hm : m.FlagSound) : (m.customEvent response).1.FlagSound := by
  rw [flagSound_iff] at hm ⊢
  rw [customEvent_flag, customEvent_committedPath, customEvent_uncommittedPath]
  exact hm

theorem applyEdits_staged (edits : List Edit) :
    ∀ m : RelinkingModel, m.FlagSound →
      (m.applyEdits edits).FlagSound ∧
      (m.applyEdits edits).m_items.map (fun item => item.committedPath)
        = m.m_items.map (fun item => item.committedPath) ∧
      (m.applyEdits edits).m_relinker = m.m_relinker := by
  induction edits with
  | nil => intro m hm; exact ⟨hm, rfl, rfl⟩
  | cons edit rest ih =>
    intro m hm
    cases edit with
    | replacePrefix pfx replacement type =>
      have step := ih (m.replacePrefix pfx replacement type).1
        (replacePrefix_flagSound m pfx replacement type hm)
      rw [replacePrefix_committedPath, replacePrefix_relinker] at step
      exact step
    | probeResult response =>
      have step := ih (m.customEvent response).1 (customEvent_flagSound m response hm)
      rw [customEvent_committedPath, customEvent_relinker] at step
      exact step

theorem rollbackChanges_paths (m : RelinkingModel) (hm : m.FlagSound) :
    m.rollbackChanges.1.m_items.map (fun item => item.uncommittedPath)
        = m.m_items.map (fun item => item.committedPath) ∧
      m.rollbackChanges.1.m_items.map (fun item => item.committedPath)
        = m.m_items.map (fun item => item.committedPath) ∧
      m.rollbackChanges.1.m_relinker = m.m_relinker := by
  cases hflag : m.m_haveUncommittedChanges with
  | false =>
    rw [rollbackChanges_of_not_flag m hflag]
    exact ⟨(flagSound_iff m).1 hm hflag, rfl, rfl⟩
  | true =>
    rw [rollbackChanges_of_flag m hflag]
    refine ⟨?_, ?_, rfl⟩
    · simp only [List.map_map]
      refine List.map_congr_left (fun item _ => ?_)
      simp only [Function.comp, rollbackEntry]
      split_ifs with h
      · rfl
      · exact not_not.1 h
    · simp only [List.map_map]
      refine List.map_congr_left (fun item _ => ?_)
      simp only [Function.comp, rollbackEntry]
      split_ifs <;> rfl

/-- C4 (commit/rollback round trip). From a registry in which every entry has its
uncommitted path equal to its committed path, any sequence of `replacePrefix`
calls and applied probe results followed by `rollbackChanges` leaves, row by row,
the uncommitted and the committed path of every entry equal to the committed path
it started with, and the relinker answers every query as before. -/
theorem rollback_round_trip (m : RelinkingModel) (edits : List Edit)
    (h : ∀ item ∈ m.m_items, item.uncommittedPath = item.committedPath) :
    (m.applyEdits edits).rollbackChanges.1.m_items.map (fun item => item.uncommittedPath)
        = m.m_items.map (fun item => item.committedPath) ∧
      (m.applyEdits edits).rollbackChanges.1.m_items.map (fun item => item.committedPath)
        = m.m_items.map (fun item => item.committedPath) ∧
      ∀ path : RelinkablePath,
        (m.applyEdits edits).rollbackChanges.1.m_relinker.substitutionPathFor path
          = m.m_relinker.substitutionPathFor path := by
  obtain ⟨hsound, hcommitted, hrelinker⟩ := applyEdits_staged edits m (fun _ => h)
  obtain ⟨h1, h2, h3⟩ := rollbackChanges_paths (m.applyEdits edits) hsound
  exact ⟨h1.trans hcommitted, h2.trans hcommitted, fun path => by rw [h3, hrelinker]⟩

/-- C4, at the registry `exampleCommitted` and the three edits that lead to
`exampleStaged`. -/
theorem rollback_round_trip_witness :
    (∀ item ∈ exampleCommitted.m_items, item.uncommittedPath = item.committedPath) ∧
      exampleStaged.m_items.map (fun item => item.uncommittedPath)
        = ["/d.txt".toList, "/c".toList] ∧
      exampleStaged.rollbackChanges.1.m_items.map (fun item => item.uncommittedPath)
        = ["/b/x.txt".toList, "/b".toList] ∧
      exampleStaged.rollbackChanges.1.m_items.map (fun item => item.committedPath)
        = ["/b/x.txt".toList, "/b".toList] :=
  have h := rollback_round_trip exampleCommitted
    [Edit.replacePrefix "/b".toList "/c".toList PathType.Dir,
      Edit.probeResult ⟨"/c/x.txt".toList, 0, Status.Exists⟩,
      Edit.replacePrefix "/c/x.txt".toList "/d.txt".toList PathType.File] (by decide)
  ⟨by decide, by decide, h.1.trans (by decide), h.2.1.trans (by decide)⟩

/-! ## commitChanges -/

/-- C5 (commit updates the entries). When the flag is set, `commitChanges` leaves
the registry with as many entries, each with its committed path equal to its
unchanged uncommitted path; an entry whose two paths differed takes its
uncommitted status as committed status and the others keep their committed
status; original path, kind and uncommitted status are unchanged and the flag is
cleared. -/
theorem commitChanges_entries (m : RelinkingModel) (h : m.m_haveUncommittedChanges = true) :
    List.Forall₂
        (fun old new : Item =>
          new.committedPath = old.uncommittedPath ∧
          new.uncommittedPath = old.uncommittedPath ∧
          (old.uncommittedPath ≠ old.committedPath →
            new.committedStatus = old.uncommittedStatus) ∧
          (old.uncommittedPath = old.committedPath →
            new.committedStatus = old.committedStatus) ∧
          new.origPath = old.origPath ∧ new.type = old.type ∧
          new.uncommittedStatus = old.uncommittedStatus)
        m.m_items m.commitChanges.1.m_items ∧
      m.commitChanges.1.m_haveUncommittedChanges = false := by
  rw [commitChanges_of_flag m h]
  refine ⟨?_, rfl⟩
  rw [List.forall₂_map_right_iff, List.forall₂_same]
  intro item _
  unfold commitEntry
  split_ifs with hc
  · exact ⟨rfl, rfl, fun _ => rfl, fun he => absurd he.symm hc, rfl, rfl, rfl⟩
  · exact ⟨(not_not.1 hc), rfl, fun hne => absurd (not_not.1 hc) (Ne.symm hne), fun _ => rfl,
      rfl, rfl, rfl⟩

/-- C5, at the registry `exampleStaged`. -/
theorem commitChanges_entries_witness :
    exampleStaged.m_haveUncommittedChanges = true ∧
      exampleStaged.commitChanges.1.m_items.map (fun item => item.committedPath)
        = ["/d.txt".toList, "/c".toList] ∧
      exampleStaged.commitChanges.1.m_haveUncommittedChanges = false :=
  ⟨by decide, by decide, (commitChanges_entries exampleStaged (by decide)).2⟩

theorem find_filter_ne (from_ key : QString) (h : from_ ≠ key) :
    ∀ l : List (QString × QString),
      Relinker.find (l.filter (fun kv => !decide (kv.1 = from_))) key = Relinker.find l key
  | [] => rfl
  | kv :: l => by
    have ih := find_filter_ne from_ key h l
    by_cases hkv : kv.1 = from_
    · have hne : ¬ kv.1 = key := fun e => h (hkv ▸ e)
      simp [List.filter_cons, hkv, Relinker.find, ih, h]
    · simp [List.filter_cons, hkv, Relinker.find, ih]

theorem find_addMapping (r : Relinker) (from_ to_ key : QString) :
    Relinker.find (r.addMapping from_ to_).m_mappings key
      = if from_ = key then some to_ else Relinker.find r.m_mappings key := by
  unfold Relinker.addMapping
  by_cases h : from_ = key
  · simp [Relinker.find, h]
  · simp [Relinker.find, h, find_filter_ne from_ key h]

theorem find_foldl_commitMapping_of_unchanged (key : QString) :
    ∀ (items : List Item) (r : Relinker),
      (∀ item ∈ items, item.origPath = key → item.uncommittedPath = item.committedPath) →
        Relinker.find (items.foldl commitMapping r).m_mappings key
          = Relinker.find r.m_mappings key
  | [], _, _ => rfl
  | item :: rest, r, h => by
    rw [List.foldl_cons,
      find_foldl_commitMapping_of_unchanged key rest _
        (fun it hit => h it (List.mem_cons_of_mem _ hit))]
    unfold commitMapping
    split_ifs with hc
    · rw [find_addMapping, if_neg]
      exact fun e => hc (h item (List.mem_cons_self _ _) e).symm
    · rfl

theorem find_foldl_commitMapping_of_changed :
    ∀ (items : List Item) (r : Relinker) (e : Item),
      (items.map (fun item => item.origPath)).Nodup → e ∈ items →
        e.uncommittedPath ≠ e.committedPath →
          Relinker.find (items.foldl commitMapping r).m_mappings e.origPath
            = some e.uncommittedPath
  | [], _, _, _, he, _ => by simp at he
  | item :: rest, r, e, hd, he, hne => by
    rw [List.map_cons, List.nodup_cons] at hd
    rw [List.foldl_cons]
    rcases List.mem_cons.1 he with rfl | hmem
    · rw [find_foldl_commitMapping_of_unchanged e.origPath rest _
        (fun it hit hk => absurd (List.mem_map.2 ⟨it, hit, hk⟩) hd.1)]
      simp [commitMapping, Ne.symm hne, find_addMapping]
    · exact find_foldl_commitMapping_of_changed rest _ e hd.2 hmem hne

/-- C6 (commit publishes exactly its own mappings). When the original paths are
pairwise distinct and the flag is set, after `commitChanges` the relinker maps
the original path of every entry whose uncommitted path differed from its
committed path to the new committed path of that entry, and returns every other
path unchanged, whatever mappings it held before. -/
theorem commitChanges_relinker (m : RelinkingModel)
    (hd : (m.m_items.map (fun item => item.origPath)).Nodup)
    (h : m.m_haveUncommittedChanges = true) :
    List.Forall₂
        (fun old new : Item =>
          old.uncommittedPath ≠ old.committedPath →
            ∀ path : RelinkablePath, path.normalizedPath = old.origPath →
              m.commitChanges.1.m_relinker.substitutionPathFor path = new.committedPath)
        m.m_items m.commitChanges.1.m_items ∧
      ∀ path : RelinkablePath,
        (∀ e ∈ m.m_items, e.origPath = path.normalizedPath →
            e.uncommittedPath = e.committedPath) →
          m.commitChanges.1.m_relinker.substitutionPathFor path = path.normalizedPath := by
  rw [commitChanges_of_flag m h]
  constructor
  · rw [List.forall₂_map_right_iff, List.forall₂_same]
    intro e he hne path hp
    simp only [Relinker.substitutionPathFor]
    rw [hp, find_foldl_commitMapping_of_changed m.m_items _ e hd he hne]
    simp [commitEntry, Ne.symm hne]
  · intro path hp
    simp only [Relinker.substitutionPathFor]
    rw [find_foldl_commitMapping_of_unchanged path.normalizedPath m.m_items _ hp]
    rfl

/-- C6, at the registry `exampleStaged`, whose relinker maps `/a` to `/b` before
the commit: `/a/x.txt` is mapped to `/d.txt`, `/a` to `/c`, and `/b` to itself. -/
theorem commitChanges_relinker_witness :
    exampleStaged.m_relinker.substitutionPathFor ⟨"/a".toList, PathType.Dir⟩ = "/b".toList ∧
      exampleStaged.commitChanges.1.m_relinker.substitutionPathFor
          ⟨"/a/x.txt".toList, PathType.File⟩ = "/d.txt".toList ∧
      exampleStaged.commitChanges.1.m_relinker.substitutionPathFor
          ⟨"/a".toList, PathType.Dir⟩ = "/c".toList ∧
      exampleStaged.commitChanges.1.m_relinker.substitutionPathFor
          ⟨"/b".toList, PathType.Dir⟩ = "/b".toList :=
  ⟨by decide, by decide, by decide,
    (commitChanges_relinker exampleStaged (by decide) (by decide)).2
      ⟨"/b".toList, PathType.Dir⟩ (by decide)⟩

/-- C7, refuted as stated: in the reachable state `exampleReverted` the only entry
has its uncommitted path equal to its committed path `/b`, the relinker maps `/a`
to `/b`, and after `commitChanges` it maps `/a` to `/a`. -/
theorem commitChanges_noop_counterexample :
    exampleReverted.Reachable ∧
      (∀ item ∈ exampleReverted.model.m_items, item.uncommittedPath = item.committedPath) ∧
      exampleReverted.model.m_relinker.substitutionPathFor ⟨"/a".toList, PathType.File⟩
        = "/b".toList ∧
      exampleReverted.model.commitChanges.1.m_relinker.substitutionPathFor
          ⟨"/a".toList, PathType.File⟩ = "/a".toList :=
  ⟨⟨exampleRevertedActions, by decide⟩, by decide, by decide, by decide⟩

theorem commitEntry_of_eq (item : Item) (h : item.uncommittedPath = item.committedPath) :
    commitEntry item = item := by
  simp [commitEntry, h]

/-- C7, amended. In a registry in which every entry has its uncommitted path equal
to its committed path, `commitChanges` leaves every entry unchanged; when the
flag is clear the call changes nothing at all, so the relinker answers every
query as before, and when the flag is set the relinker is replaced by an empty
one, which returns every path unchanged. -/
theorem commitChanges_without_staged_edits (m : RelinkingModel)
    (h : ∀ item ∈ m.m_items, item.uncommittedPath = item.committedPath) :
    m.commitChanges.1.m_items = m.m_items ∧
      (m.m_haveUncommittedChanges = false →
        m.commitChanges = (m, []) ∧
        ∀ path : RelinkablePath,
          m.commitChanges.1.m_relinker.substitutionPathFor path
            = m.m_relinker.substitutionPathFor path) ∧
      (m.m_haveUncommittedChanges = true →
        ∀ path : RelinkablePath,
          m.commitChanges.1.m_relinker.substitutionPathFor path = path.normalizedPath) := by
  refine ⟨?_, fun hflag => ?_, fun hflag path => ?_⟩
  · cases hflag : m.m_haveUncommittedChanges with
    | false => rw [commitChanges_of_not_flag m hflag]
    | true =>
      rw [commitChanges_of_flag m hflag]
      exact (List.map_congr_left (fun item hitem => commitEntry_of_eq item (h item hitem))).trans
        (List.map_id _)
  · rw [commitChanges_of_not_flag m hflag]
    exact ⟨rfl, fun _ => rfl⟩
  · rw [commitChanges_of_flag m hflag]
    simp only [Relinker.substitutionPathFor]
    rw [find_foldl_commitMapping_of_unchanged path.normalizedPath m.m_items _
      (fun item hitem _ => h item hitem)]
    rfl

/-- C7 amended, at the registry of `exampleReverted` (flag set) and at
`exampleCommitted` (flag clear). -/
theorem commitChanges_without_staged_edits_witness :
    (exampleReverted.model.m_haveUncommittedChanges = true ∧
      exampleReverted.model.commitChanges.1.m_items = exampleReverted.model.m_items) ∧
    (exampleCommitted.m_haveUncommittedChanges = false ∧
      exampleCommitted.commitChanges = (exampleCommitted, [])) :=
  ⟨⟨by decide, (commitChanges_without_staged_edits exampleReverted.model (by decide)).1⟩,
    ⟨by decide,
      ((commitChanges_without_staged_edits exampleCommitted (by decide)).2.1 (by decide)).1⟩⟩

/-! ## rollbackChanges -/

/-- C8, refuted as stated: in the reachable state `exampleProbed` the flag is set
and the only entry has committed status `Exists` and uncommitted status pending;
after `rollbackChanges` the two statuses are still different. -/
theorem rollbackChanges_status_counterexample :
    exampleProbed.Reachable ∧
      exampleProbed.model.m_haveUncommittedChanges = true ∧
      exampleProbed.model.rollbackChanges.1.m_items.map
          (fun item => (item.uncommittedStatus, item.committedStatus))
        = [(Status.StatusUpdatePending, Status.Exists)] :=
  ⟨⟨exampleProbedActions, by decide⟩, by decide, by decide⟩

/-- C8, amended. When the flag is set, after `rollbackChanges` every entry has its
uncommitted path equal to its committed path, which is unchanged like its
committed status; an entry whose two paths differed before the call has its
uncommitted status equal to its committed status, and an entry whose two paths
were equal keeps its uncommitted status. The flag is cleared. -/
theorem rollbackChanges_entries (m : RelinkingModel) (h : m.m_haveUncommittedChanges = true) :
    List.Forall₂
        (fun old new : Item =>
          new.uncommittedPath = new.committedPath ∧
          new.committedPath = old.committedPath ∧
          new.committedStatus = old.committedStatus ∧
          (old.uncommittedPath ≠ old.committedPath →
            new.uncommittedStatus = new.committedStatus) ∧
          (old.uncommittedPath = old.committedPath →
            new.uncommittedStatus = old.uncommittedStatus))
        m.m_items m.rollbackChanges.1.m_items ∧
      m.rollbackChanges.1.m_haveUncommittedChanges = false := by
  rw [rollbackChanges_of_flag m h]
  refine ⟨?_, rfl⟩
  rw [List.forall₂_map_right_iff, List.forall₂_same]
  intro item _
  unfold rollbackEntry
  split_ifs with hc
  · exact ⟨rfl, rfl, rfl, fun _ => rfl, fun he => absurd he hc⟩
  · exact ⟨not_not.1 hc, rfl, rfl, fun hne => absurd (not_not.1 hc) hne, fun _ => rfl⟩

/-- C8 amended, at the registry of `exampleProbedStaged`: its entry has committed
path `/a` with status `Exists` and staged path `/b` with pending status, and
after the rollback both statuses are `Exists`. -/
theorem rollbackChanges_entries_witness :
    exampleProbedStaged.model.m_haveUncommittedChanges = true ∧
      exampleProbedStaged.model.m_items
        = [⟨"/a".toList, "/a".toList, "/b".toList, PathType.File, Status.Exists,
            Status.StatusUpdatePending⟩] ∧
      exampleProbedStaged.model.rollbackChanges.1.m_items
        = [⟨"/a".toList, "/a".toList, "/a".toList, PathType.File, Status.Exists,
            Status.Exists⟩] ∧
      exampleProbedStaged.model.rollbackChanges.1.m_haveUncommittedChanges = false :=
  ⟨by decide, by decide, by decide,
    (rollbackChanges_entries exampleProbedStaged.model (by decide)).2⟩

/-! ## replacePrefix -/

theorem replacePrefixEntry_uncommittedPath (pfx slashTerminatedPrefix replacement : QString)
    (type : PathType) (item : Item) :
    (replacePrefixEntry pfx slashTerminatedPrefix replacement type item).uncommittedPath
      = (replacePrefixItem pfx slashTerminatedPrefix replacement type item).1.uncommittedPath := by
  unfold replacePrefixEntry
  split_ifs with h
  · rfl
  · rw [replacePrefixItem_not_modified _ _ _ _ _ h]

theorem ensureEndsWithSlash_eq (pfx : QString) :
    ensureEndsWithSlash pfx = if pfx.getLast? = some '/' then pfx else pfx ++ ['/'] := by
  unfold ensureEndsWithSlash QString.endsWith
  by_cases h : pfx.getLast? = some '/' <;> simp [h]

theorem ensureEndsWithSlash_snoc (pfx : QString) :
    ∃ front : QString, ensureEndsWithSlash pfx = front ++ ['/'] := by
  rw [ensureEndsWithSlash_eq]
  split_ifs with h
  · exact ⟨pfx.dropLast, (List.dropLast_append_getLast? '/' h).symm⟩
  · exact ⟨pfx, rfl⟩

theorem right_of_slashTerminated (front rest : QString) :
    QString.right ((front ++ ['/']) ++ rest)
        ((((front ++ ['/']) ++ rest).length : Int) - ((front ++ ['/']).length : Int) + 1)
      = '/' :: rest := by
  have hlen : ((((front ++ ['/']) ++ rest).length : Int) - ((front ++ ['/']).length : Int) + 1)
      = ((rest.length + 1 : Nat) : Int) := by
    simp only [List.length_append, List.length_singleton]
    push_cast
    ring
  rw [hlen]
  unfold QString.right
  cases front with
  | nil => simp
  | cons c front =>
    have hnot : ¬ (((rest.length + 1 : Nat) : Int) < 0 ∨
        ((((c :: front) ++ ['/']) ++ rest).length : Int) ≤ ((rest.length + 1 : Nat) : Int)) := by
      simp only [List.cons_append, List.length_append, List.length_cons, List.length_nil]
      push_cast
      omega
    rw [if_neg hnot, Int.toNat_ofNat]
    have hdrop : (((c :: front) ++ ['/']) ++ rest).length - (rest.length + 1)
        = (c :: front).length := by
      simp only [List.cons_append, List.length_append, List.length_cons, List.length_nil]
      omega
    rw [hdrop, List.append_assoc, List.drop_left]
    rfl

theorem replacePrefixItem_dir_matching (pfx replacement : QString) (item : Item)
    (rest : QString) (h : item.uncommittedPath = ensureEndsWithSlash pfx ++ rest) :
    (replacePrefixItem pfx (ensureEndsWithSlash pfx) replacement PathType.Dir
        item).1.uncommittedPath = replacement ++ '/' :: rest := by
  obtain ⟨front, hfront⟩ := ensureEndsWithSlash_snoc pfx
  have hstarts : QString.startsWith item.uncommittedPath (ensureEndsWithSlash pfx) = true := by
    rw [h]
    simp [QString.startsWith]
  unfold replacePrefixItem
  rw [if_neg (by decide), if_pos hstarts]
  simp only [h, hfront]
  rw [right_of_slashTerminated]

theorem replacePrefixItem_dir_other (pfx replacement : QString) (item : Item)
    (h : ∀ rest : QString, item.uncommittedPath ≠ ensureEndsWithSlash pfx ++ rest) :
    (replacePrefixItem pfx (ensureEndsWithSlash pfx) replacement PathType.Dir
        item).1.uncommittedPath
      = if item.uncommittedPath = pfx then replacement else item.uncommittedPath := by
  have hstarts : ¬ QString.startsWith item.uncommittedPath (ensureEndsWithSlash pfx) = true := by
    intro hs
    rw [QString.startsWith, List.isPrefixOf_iff_prefix] at hs
    obtain ⟨rest, hrest⟩ := hs
    exact h rest hrest.symm
  unfold replacePrefixItem
  rw [if_neg (by decide), if_neg hstarts]
  split_ifs <;> rfl

theorem replacePrefixItem_file (pfx slashTerminatedPrefix replacement : QString) (item : Item)
    (h : item.type = PathType.File) :
    (replacePrefixItem pfx slashTerminatedPrefix replacement PathType.File
        item).1.uncommittedPath
      = if item.uncommittedPath = pfx then replacement else item.uncommittedPath := by
  unfold replacePrefixItem
  by_cases hp : item.uncommittedPath = pfx <;> simp [h, hp]

theorem replacePrefixEntry_file_of_not_file (pfx slashTerminatedPrefix replacement : QString)
    (item : Item) (h : item.type ≠ PathType.File) :
    replacePrefixEntry pfx slashTerminatedPrefix replacement PathType.File item = item := by
  simp [replacePrefixEntry, replacePrefixItem, h]

/-- C9 (the rewrite rule on entries of the given kind). With `S` the prefix itself
when it ends in `/` and the prefix followed by `/` otherwise, `replacePrefix`
gives every entry whose kind is the kind argument this uncommitted path: for a
file, the replacement when the old path equals the prefix and the old path
otherwise; for a directory, the replacement followed by `/` and `rest` when the
old path is `S` followed by `rest`, and otherwise the replacement when the old
path equals the prefix and the old path in every other case. -/
theorem replacePrefix_rule (m : RelinkingModel) (pfx replacement : QString) (type : PathType) :
    List.Forall₂
      (fun old new : Item =>
        old.type = type →
          (type = PathType.File →
            new.uncommittedPath
              = if old.uncommittedPath = pfx then replacement else old.uncommittedPath) ∧
          (type = PathType.Dir →
            (∀ rest : QString,
              old.uncommittedPath
                  = (if pfx.getLast? = some '/' then pfx else pfx ++ "/".toList) ++ rest →
                new.uncommittedPath = replacement ++ "/".toList ++ rest) ∧
            ((∀ rest : QString,
                old.uncommittedPath
                  ≠ (if pfx.getLast? = some '/' then pfx else pfx ++ "/".toList) ++ rest) →
              new.uncommittedPath
                = if old.uncommittedPath = pfx then replacement else old.uncommittedPath)))
      m.m_items (m.replacePrefix pfx replacement type).1.m_items := by
  rw [replacePrefix_items, List.forall₂_map_right_iff, List.forall₂_same]
  intro item _ hkind
  rw [replacePrefixEntry_uncommittedPath]
  have hS : (if pfx.getLast? = some '/' then pfx else pfx ++ "/".toList)
      = ensureEndsWithSlash pfx := (ensureEndsWithSlash_eq pfx).symm
  rw [hS]
  refine ⟨fun hfile => ?_, fun hdir => ⟨fun rest hrest => ?_, fun hnot => ?_⟩⟩
  · subst hfile
    exact replacePrefixItem_file pfx _ replacement item hkind
  · subst hdir
    rw [replacePrefixItem_dir_matching pfx replacement item rest hrest]
    simp
  · subst hdir
    exact replacePrefixItem_dir_other pfx replacement item hnot

/-- C9, at the registry `exampleDirs` and the directory replacement of `/a` by
`/b`: the directory `/a/sub` becomes `/b/sub` and the directory `/a` becomes `/b`. -/
theorem replacePrefix_rule_witness :
    ((exampleDirs.replacePrefix "/a".toList "/b".toList PathType.Dir).1.m_items.get
        ⟨0, by decide⟩).uncommittedPath = "/b/sub".toList ∧
      ((exampleDirs.replacePrefix "/a".toList "/b".toList PathType.Dir).1.m_items.get
        ⟨1, by decide⟩).uncommittedPath = "/b".toList :=
  ⟨(((replacePrefix_rule exampleDirs "/a".toList "/b".toList PathType.Dir).get (i := 0)
        (by decide) (by decide) (by decide)).2 rfl).1 "sub".toList (by decide),
    (((replacePrefix_rule exampleDirs "/a".toList "/b".toList PathType.Dir).get (i := 1)
        (by decide) (by decide) (by decide)).2 rfl).2 (fun rest h => by cases h)⟩

/-- C10, refuted as stated: in the reachable state `exampleAdded` row 0 is the file
`/a/x.txt`, and the directory replacement of `/a` by `/b` rewrites its
uncommitted path to `/b/x.txt`. -/
theorem replacePrefix_kind_counterexample :
    exampleAdded.Reachable ∧
      exampleAdded.model.m_items.map (fun item => (item.type, item.uncommittedPath))
        = [(PathType.File, "/a/x.txt".toList), (PathType.Dir, "/a".toList)] ∧
      (exampleAdded.model.replacePrefix "/a".toList "/b".toList PathType.Dir).1.m_items.map
          (fun item => (item.type, item.uncommittedPath))
        = [(PathType.File, "/b/x.txt".toList), (PathType.Dir, "/b".toList)] :=
  ⟨⟨exampleAddedActions, by decide⟩, by decide, by decide⟩

theorem replacePrefixEntry_dir_matching (pfx replacement : QString) (item : Item)
    (rest : QString) (h : item.uncommittedPath = ensureEndsWithSlash pfx ++ rest) :
    replacePrefixEntry pfx (ensureEndsWithSlash pfx) replacement PathType.Dir item
      = { item with
          uncommittedPath := replacement ++ '/' :: rest
          uncommittedStatus := Status.StatusUpdatePending } := by
  obtain ⟨front, hfront⟩ := ensureEndsWithSlash_snoc pfx
  have hstarts : QString.startsWith item.uncommittedPath (ensureEndsWithSlash pfx) = true := by
    rw [h]
    simp [QString.startsWith]
  have hright : QString.right item.uncommittedPath
      ((item.uncommittedPath.length : Int) - ((ensureEndsWithSlash pfx).length : Int) + 1)
      = '/' :: rest := by
    rw [h, hfront]
    exact right_of_slashTerminated front rest
  simp [replacePrefixEntry, replacePrefixItem, hstarts, hright]

theorem replacePrefixEntry_dir_bare (pfx replacement : QString) (item : Item)
    (h : ∀ rest : QString, item.uncommittedPath ≠ ensureEndsWithSlash pfx ++ rest)
    (hp : item.uncommittedPath = pfx) :
    replacePrefixEntry pfx (ensureEndsWithSlash pfx) replacement PathType.Dir item
      = { item with
          uncommittedPath := replacement
          uncommittedStatus := Status.StatusUpdatePending } := by
  have hstarts : ¬ QString.startsWith item.uncommittedPath (ensureEndsWithSlash pfx) = true := by
    intro hs
    rw [QString.startsWith, List.isPrefixOf_iff_prefix] at hs
    obtain ⟨rest, hrest⟩ := hs
    exact h rest hrest.symm
  have hitem : replacePrefixItem pfx (ensureEndsWithSlash pfx) replacement PathType.Dir item
      = ({ item with uncommittedPath := replacement }, true) := by
    unfold replacePrefixItem
    rw [if_neg (by decide), if_neg hstarts, if_pos hp]
  unfold replacePrefixEntry
  rw [hitem]
  rfl

theorem replacePrefixEntry_dir_unrelated (pfx replacement : QString) (item : Item)
    (h : ∀ rest : QString, item.uncommittedPath ≠ ensureEndsWithSlash pfx ++ rest)
    (hp : item.uncommittedPath ≠ pfx) :
    replacePrefixEntry pfx (ensureEndsWithSlash pfx) replacement PathType.Dir item = item := by
  have hstarts : ¬ QString.startsWith item.uncommittedPath (ensureEndsWithSlash pfx) = true := by
    intro hs
    rw [QString.startsWith, List.isPrefixOf_iff_prefix] at hs
    obtain ⟨rest, hrest⟩ := hs
    exact h rest hrest.symm
  have hitem : replacePrefixItem pfx (ensureEndsWithSlash pfx) replacement PathType.Dir item
      = (item, false) := by
    unfold replacePrefixItem
    rw [if_neg (by decide), if_neg hstarts, if_neg hp]
  unfold replacePrefixEntry
  rw [hitem]
  rfl

/-- C10, amended. Every entry whose kind differs from the kind argument is left
completely unchanged, with one exception. A file replacement leaves every entry
that is not a file unchanged. A directory replacement treats the entries of both
kinds alike, so that a file follows its directory: with `S` the prefix itself
when it ends in `/` and the prefix followed by `/` otherwise, an entry whose
uncommitted path is `S` followed by `rest` gets the replacement followed by `/`
and `rest` as uncommitted path and a pending uncommitted status; an entry whose
uncommitted path does not start with `S` and equals the prefix gets the
replacement and a pending uncommitted status; in both cases every other field is
unchanged; and an entry, file or directory, whose uncommitted path neither starts
with `S` nor equals the prefix is left completely unchanged. -/
theorem replacePrefix_kinds (m : RelinkingModel) (pfx replacement : QString) :
    List.Forall₂ (fun old new : Item => old.type ≠ PathType.File → new = old)
        m.m_items (m.replacePrefix pfx replacement PathType.File).1.m_items ∧
      List.Forall₂
        (fun old new : Item =>
          (∀ rest : QString,
            old.uncommittedPath
                = (if pfx.getLast? = some '/' then pfx else pfx ++ "/".toList) ++ rest →
              new = { old with
                uncommittedPath := replacement ++ "/".toList ++ rest
                uncommittedStatus := Status.StatusUpdatePending }) ∧
          ((∀ rest : QString,
              old.uncommittedPath
                ≠ (if pfx.getLast? = some '/' then pfx else pfx ++ "/".toList) ++ rest) →
            (old.uncommittedPath = pfx →
              new = { old with
                uncommittedPath := replacement
                uncommittedStatus := Status.StatusUpdatePending }) ∧
            (old.uncommittedPath ≠ pfx → new = old)))
        m.m_items (m.replacePrefix pfx replacement PathType.Dir).1.m_items := by
  constructor
  · rw [replacePrefix_items, List.forall₂_map_right_iff, List.forall₂_same]
    exact fun item _ hkind => replacePrefixEntry_file_of_not_file pfx _ replacement item hkind
  · rw [replacePrefix_items, List.forall₂_map_right_iff, List.forall₂_same]
    intro item _
    have hS : (if pfx.getLast? = some '/' then pfx else pfx ++ "/".toList)
        = ensureEndsWithSlash pfx := (ensureEndsWithSlash_eq pfx).symm
    rw [hS]
    refine ⟨fun rest hrest => ?_, fun hnot => ⟨fun hp => ?_, fun hp => ?_⟩⟩
    · rw [replacePrefixEntry_dir_matching pfx replacement item rest hrest]
      simp
    · exact replacePrefixEntry_dir_bare pfx replacement item hnot hp
    · exact replacePrefixEntry_dir_unrelated pfx replacement item hnot hp

/-- C10 amended, at the registries `exampleDirs` and `exampleRuns`: the file
replacement of `/a` by `/b` leaves the directory `/a` unchanged; the directory
replacement of `/a` by `/b` rewrites the file `/a/x.txt` to `/b/x.txt` with a
pending status; and the directory replacement of `/a` by `/c` leaves the file
`/b/z` unchanged. -/
theorem replacePrefix_kinds_witness :
    (exampleDirs.replacePrefix "/a".toList "/b".toList PathType.File).1.m_items.get
        ⟨1, by decide⟩ = exampleDirs.m_items.get ⟨1, by decide⟩ ∧
      (exampleDirs.replacePrefix "/a".toList "/b".toList PathType.Dir).1.m_items.get
        ⟨2, by decide⟩
        = ⟨"/a/x.txt".toList, "/a/x.txt".toList, "/b/x.txt".toList, PathType.File,
            Status.StatusUpdatePending, Status.StatusUpdatePending⟩ ∧
      (exampleRuns.replacePrefix "/a".toList "/c".toList PathType.Dir).1.m_items.get
        ⟨2, by decide⟩ = exampleRuns.m_items.get ⟨2, by decide⟩ :=
  ⟨(replacePrefix_kinds exampleDirs "/a".toList "/b".toList).1.get (i := 1)
      (by decide) (by decide) (by decide),
    ((replacePrefix_kinds exampleDirs "/a".toList "/b".toList).2.get (i := 2)
      (by decide) (by decide)).1 "x.txt".toList (by decide),
    (((replacePrefix_kinds exampleRuns "/a".toList "/c".toList).2.get (i := 2)
      (by decide) (by decide)).2
        (fun rest h => by simp [exampleRuns, RelinkingModel.addPaths, RelinkingModel.addPath,
          origPathSetInsert, RelinkingModel.requestStatusUpdate, requestStatusUpdateItem,
          Item.ofPath, RelinkingModel.init] at h)).2 (by decide)⟩

/-! ## customEvent -/

theorem customEvent_of_out_of_range (m : RelinkingModel) (response : StatusUpdateResponse)
    (h : response.m_row < 0 ∨ (m.m_items.length : Int) ≤ response.m_row) :
    m.customEvent response = (m, []) := by
  unfold RelinkingModel.customEvent
  rw [if_pos h]

theorem customEvent_of_in_range (m : RelinkingModel) (response : StatusUpdateResponse)
    (item : Item) (h0 : 0 ≤ response.m_row)
    (hget : m.m_items[response.m_row.toNat]? = some item) :
    m.customEvent response
      = ({ m with m_items := m.m_items.set response.m_row.toNat (customEventEntry response item) },
          [Effect.dataChanged response.m_row response.m_row]) := by
  have hlt : response.m_row.toNat < m.m_items.length := by
    by_contra hge
    rw [List.getElem?_eq_none (Nat.le_of_not_lt hge)] at hget
    exact Option.noConfusion hget
  have hrange : ¬ (response.m_row < 0 ∨ response.m_row ≥ (m.m_items.length : Int)) := by
    omega
  unfold RelinkingModel.customEvent
  rw [if_neg hrange, List.get?_eq_getElem?, hget]
  rfl

theorem getElem?_of_in_range (m : RelinkingModel) (row : Int) (h0 : 0 ≤ row)
    (h1 : row < (m.m_items.length : Int)) : ∃ item, m.m_items[row.toNat]? = some item := by
  have hlt : row.toNat < m.m_items.length := by omega
  exact ⟨m.m_items[row.toNat], List.getElem?_eq_getElem hlt⟩

theorem customEventEntry_fields (response : StatusUpdateResponse) (item : Item) :
    (customEventEntry response item).uncommittedStatus
        = (if item.uncommittedPath = response.m_path then response.m_status
            else item.uncommittedStatus) ∧
      (customEventEntry response item).committedStatus
        = (if item.committedPath = response.m_path then response.m_status
            else item.committedStatus) ∧
      (customEventEntry response item).origPath = item.origPath ∧
      (customEventEntry response item).committedPath = item.committedPath ∧
      (customEventEntry response item).uncommittedPath = item.uncommittedPath ∧
      (customEventEntry response item).type = item.type := by
  by_cases h1 : item.uncommittedPath = response.m_path <;>
    by_cases h2 : item.committedPath = response.m_path <;>
    simp [customEventEntry, h1, h2]

/-- C11 (applying a probe result). A response whose row is negative or not below
the number of entries leaves the whole registry unchanged and emits nothing.
Otherwise the entry at the row takes the status of the response as uncommitted
status exactly when its uncommitted path is the path of the response, and as
committed status exactly when its committed path is that path, each status being
unchanged otherwise; its paths and kind, every other row, the number of entries,
the flag, the relinker, the set of tracked paths and the task queue are
unchanged, and one single-row notification is emitted. -/
theorem customEvent_spec (m : RelinkingModel) (response : StatusUpdateResponse) :
    ((response.m_row < 0 ∨ (m.m_items.length : Int) ≤ response.m_row) →
        m.customEvent response = (m, [])) ∧
    ((0 ≤ response.m_row ∧ response.m_row < (m.m_items.length : Int)) →
      (∃ old new : Item,
        m.m_items[response.m_row.toNat]? = some old ∧
        (m.customEvent response).1.m_items[response.m_row.toNat]? = some new ∧
        new.uncommittedStatus
          = (if old.uncommittedPath = response.m_path then response.m_status
              else old.uncommittedStatus) ∧
        new.committedStatus
          = (if old.committedPath = response.m_path then response.m_status
              else old.committedStatus) ∧
        new.origPath = old.origPath ∧ new.committedPath = old.committedPath ∧
        new.uncommittedPath = old.uncommittedPath ∧ new.type = old.type) ∧
      (∀ i : Nat, i ≠ response.m_row.toNat →
        (m.customEvent response).1.m_items[i]? = m.m_items[i]?) ∧
      (m.customEvent response).1.m_items.length = m.m_items.length ∧
      (m.customEvent response).1.m_haveUncommittedChanges = m.m_haveUncommittedChanges ∧
      (m.customEvent response).1.m_relinker = m.m_relinker ∧
      (m.customEvent response).1.m_origPathSet = m.m_origPathSet ∧
      (m.customEvent response).1.m_statusUpdateThread = m.m_statusUpdateThread ∧
      (m.customEvent response).2
        = [Effect.dataChanged response.m_row response.m_row]) := by
  refine ⟨customEvent_of_out_of_range m response, fun hrange => ?_⟩
  obtain ⟨old, hold⟩ := getElem?_of_in_range m response.m_row hrange.1 hrange.2
  have hlt : response.m_row.toNat < m.m_items.length := by omega
  rw [customEvent_of_in_range m response old hrange.1 hold]
  refine ⟨⟨old, customEventEntry response old, hold, ?_, customEventEntry_fields response old⟩,
    ?_, ?_, rfl, rfl, rfl, rfl, rfl⟩
  · simp [List.getElem?_set, hlt]
  · intro i hi
    simp [List.getElem?_set, Ne.symm hi]
  · simp

/-- C11, at the registry of `exampleProbedStaged`, whose entry has committed path
`/a` and staged path `/b`: a response for `/b` sets the uncommitted status only,
and a response for row 5 is dropped. -/
theorem customEvent_spec_witness :
    (exampleProbedStaged.model.customEvent ⟨"/b".toList, 0, Status.Missing⟩).1.m_items
        = [⟨"/a".toList, "/a".toList, "/b".toList, PathType.File, Status.Exists,
            Status.Missing⟩] ∧
      exampleProbedStaged.model.customEvent ⟨"/b".toList, 5, Status.Missing⟩
        = (exampleProbedStaged.model, []) :=
  ⟨by decide,
    (customEvent_spec exampleProbedStaged.model ⟨"/b".toList, 5, Status.Missing⟩).1
      (by decide)⟩

theorem replacePrefixEntry_of_path_changed (pfx slashTerminatedPrefix replacement : QString)
    (type : PathType) (item : Item)
    (h : (replacePrefixEntry pfx slashTerminatedPrefix replacement type item).uncommittedPath
      ≠ item.uncommittedPath) :
    (replacePrefixEntry pfx slashTerminatedPrefix replacement type item).uncommittedStatus
      = Status.StatusUpdatePending := by
  unfold replacePrefixEntry at h ⊢
  split_ifs at h ⊢ with hmod
  · rfl
  · exact absurd rfl h

/-- C12 (a stale probe result is harmless). When `replacePrefix` changes the
uncommitted path of the entry at row `r` from `P` to a different path, the entry
has pending uncommitted status, and after a response for the old path `P` and
row `r` is applied, whatever its status, the entry still has pending uncommitted
status and the new uncommitted path. -/
theorem stale_probe_result (m : RelinkingModel) (pfx replacement : QString) (type : PathType)
    (r : Nat) (old new : Item) (status : Status)
    (hold : m.m_items[r]? = some old)
    (hnew : (m.replacePrefix pfx replacement type).1.m_items[r]? = some new)
    (hne : new.uncommittedPath ≠ old.uncommittedPath) :
    new.uncommittedStatus = Status.StatusUpdatePending ∧
      ∃ final : Item,
        ((m.replacePrefix pfx replacement type).1.customEvent
            ⟨old.uncommittedPath, r, status⟩).1.m_items[r]? = some final ∧
          final.uncommittedStatus = Status.StatusUpdatePending ∧
          final.uncommittedPath = new.uncommittedPath := by
  have hentry : replacePrefixEntry pfx (ensureEndsWithSlash pfx) replacement type old = new := by
    rw [replacePrefix_items, List.getElem?_map, hold] at hnew
    simpa using hnew
  have hpending : new.uncommittedStatus = Status.StatusUpdatePending := by
    rw [← hentry]
    exact replacePrefixEntry_of_path_changed _ _ _ _ old (by rw [hentry]; exact hne)
  have hlt : r < (m.replacePrefix pfx replacement type).1.m_items.length :=
    (List.getElem?_eq_some.1 hnew).1
  have hevent := customEvent_of_in_range (m.replacePrefix pfx replacement type).1
    ⟨old.uncommittedPath, (r : Int), status⟩ new (by simp) (by simpa using hnew)
  refine ⟨hpending, customEventEntry ⟨old.uncommittedPath, (r : Int), status⟩ new, ?_, ?_, ?_⟩
  · rw [hevent]
    simp [List.getElem?_set, hlt]
  · rw [(customEventEntry_fields _ new).1, if_neg hne, hpending]
  · exact (customEventEntry_fields _ new).2.2.2.2.1

/-- C12, at the registry `exampleCommitted`: the directory `/b` in row 1 is
relinked to `/c` and the result `Missing` for `/b` arrives afterwards. -/
theorem stale_probe_result_witness :
    ∃ final : Item,
      ((exampleCommitted.replacePrefix "/b".toList "/c".toList PathType.Dir).1.customEvent
          ⟨"/b".toList, 1, Status.Missing⟩).1.m_items[1]? = some final ∧
        final.uncommittedStatus = Status.StatusUpdatePending ∧
        final.uncommittedPath = "/c".toList :=
  (stale_probe_result exampleCommitted "/b".toList "/c".toList PathType.Dir 1
    ⟨"/a".toList, "/b".toList, "/b".toList, PathType.Dir, Status.StatusUpdatePending,
      Status.StatusUpdatePending⟩
    ⟨"/a".toList, "/b".toList, "/c".toList, PathType.Dir, Status.StatusUpdatePending,
      Status.StatusUpdatePending⟩
    Status.Missing (by decide) (by decide) (by decide)).2

/-! ## The task queue -/

theorem relocateToEnd_cons_succ (a : Task) (tasks : List Task) (pos : Nat) :
    TaskList.relocateToEnd (a :: tasks) (pos + 1) = a :: TaskList.relocateToEnd tasks pos := by
  unfold TaskList.relocateToEnd
  rw [List.get?_cons_succ]
  cases tasks.get? pos <;> rfl

theorem request_nil (task : Task) : TaskList.request [] task = [task] := rfl

theorem request_cons_pos (a task : Task) (tasks : List Task) (h : a.path = task.path) :
    TaskList.request (a :: tasks) task = tasks ++ [a] := by
  simp [TaskList.request, TaskList.insert, TaskList.relocateToEnd, h]

theorem request_cons_neg (a task : Task) (tasks : List Task) (h : a.path ≠ task.path) :
    TaskList.request (a :: tasks) task = a :: TaskList.request tasks task := by
  unfold TaskList.request TaskList.insert
  rw [List.findIdx?_cons, if_neg (by simpa using h), List.findIdx?_succ]
  cases tasks.findIdx? (fun t => decide (t.path = task.path)) with
  | none =>
    simp only [Option.map_none', List.cons_append, List.length_cons]
    exact relocateToEnd_cons_succ a _ _
  | some pos =>
    simp only [Option.map_some']
    exact relocateToEnd_cons_succ a _ _

theorem request_eq (task : Task) :
    ∀ tasks : List Task,
      TaskList.request tasks task
        = tasks.eraseP (fun t => decide (t.path = task.path)) ++
          [(tasks.find? (fun t => decide (t.path = task.path))).getD task]
  | [] => rfl
  | a :: tasks => by
    by_cases h : a.path = task.path
    · rw [request_cons_pos a task tasks h]
      simp [h]
    · rw [request_cons_neg a task tasks h, request_eq task tasks]
      simp [h]

theorem request_of_last (task kept : Task) (h : kept.path = task.path) :
    ∀ front : List Task, (∀ t ∈ front, t.path ≠ task.path) →
      TaskList.request (front ++ [kept]) task = front ++ [kept]
  | [], _ => request_cons_pos kept task [] h
  | a :: front, hfront => by
    rw [List.cons_append, request_cons_neg a task _ (hfront a (List.mem_cons_self _ _)),
      request_of_last task kept h front (fun t ht => hfront t (List.mem_cons_of_mem _ ht))]

theorem eraseP_path_of_nodup (path : QString) :
    ∀ tasks : List Task, (tasks.map (fun t => t.path)).Nodup →
      ∀ t ∈ tasks.eraseP (fun t => decide (t.path = path)), t.path ≠ path
  | [], _, t, ht => by simp at ht
  | a :: tasks, hu, t, ht => by
    rw [List.map_cons, List.nodup_cons] at hu
    by_cases h : a.path = path
    · rw [List.eraseP_cons_of_pos (by simpa using h)] at ht
      intro hpath
      exact hu.1 (List.mem_map.2 ⟨t, ht, hpath.trans h.symm⟩)
    · rw [List.eraseP_cons_of_neg (by simpa using h)] at ht
      rcases List.mem_cons.1 ht with rfl | hmem
      · exact h
      · exact eraseP_path_of_nodup path tasks hu.2 t hmem

theorem requestStatusUpdate_of_accepted (t : StatusUpdateThread) (path : QString) (row : Int)
    (hex : t.m_exiting = false) (hp : path ≠ t.m_pathBeingProcessed) :
    t.requestStatusUpdate path row
      = { t with m_tasks := TaskList.request t.m_tasks ⟨path, row⟩, isRunning := true } := by
  unfold StatusUpdateThread.requestStatusUpdate
  rw [if_neg (by simp [hex]), if_neg hp]
  rfl

theorem requestStatusUpdate_of_in_progress (t : StatusUpdateThread) (path : QString) (row : Int)
    (hp : path = t.m_pathBeingProcessed) : t.requestStatusUpdate path row = t := by
  unfold StatusUpdateThread.requestStatusUpdate
  split_ifs <;> rfl

theorem requestStatusUpdate_pathBeingProcessed (t : StatusUpdateThread) (path : QString)
    (row : Int) :
    (t.requestStatusUpdate path row).m_pathBeingProcessed = t.m_pathBeingProcessed ∧
      (t.requestStatusUpdate path row).m_exiting = t.m_exiting := by
  unfold StatusUpdateThread.requestStatusUpdate
  split_ifs <;> exact ⟨rfl, rfl⟩

/-- C13, refuted as stated: two requests for `/a`, with rows 1 and 2, on a fresh
queue leave the single task `(/a, 1)`, which carries the first row. -/
theorem requestStatusUpdates_row_counterexample :
    (StatusUpdateThread.init.requestStatusUpdates "/a".toList [1, 2]).m_tasks
      = [⟨"/a".toList, 1⟩] := by
  decide

theorem requestStatusUpdates_of_last (path : QString) (front : List Task) (kept : Task)
    (hk : kept.path = path) (hfront : ∀ t ∈ front, t.path ≠ path) :
    ∀ (rows : List Int) (t : StatusUpdateThread),
      t.m_exiting = false → path ≠ t.m_pathBeingProcessed → t.m_tasks = front ++ [kept] →
        (t.requestStatusUpdates path rows).m_tasks = front ++ [kept]
  | [], _, _, _, htasks => htasks
  | row :: rows, t, hex, hp, htasks => by
    have hstep : (t.requestStatusUpdate path row).m_tasks = front ++ [kept] := by
      rw [requestStatusUpdate_of_accepted t path row hex hp]
      show TaskList.request t.m_tasks ⟨path, row⟩ = front ++ [kept]
      rw [htasks]
      exact request_of_last ⟨path, row⟩ kept hk front hfront
    have hkeep := requestStatusUpdate_pathBeingProcessed t path row
    exact requestStatusUpdates_of_last path front kept hk hfront rows
      (t.requestStatusUpdate path row) (hkeep.2.trans hex) (hkeep.1 ▸ hp) hstep

theorem find?_path_getD (path : QString) (row : Int) (tasks : List Task) :
    (tasks.find? (fun t => decide (t.path = path))).getD ⟨path, row⟩
      = ⟨path, ((tasks.find? (fun t => decide (t.path = path))).map (fun t => t.row)).getD row⟩ := by
  cases hfind : tasks.find? (fun t => decide (t.path = path)) with
  | none => rfl
  | some found =>
    have hpath : found.path = path := by simpa using List.find?_some hfind
    cases found
    simp_all

/-- C13, amended. On a queue that is not exiting and holds at most one task per
path, `N >= 1` consecutive requests for a path other than the path being
processed leave exactly one task for that path, at the end of the queue; it
carries the row of the task that was already queued for the path when there was
one, and otherwise the row of the first request. -/
theorem requestStatusUpdates_single_task (t : StatusUpdateThread) (path : QString)
    (r1 : Int) (rows : List Int) (hex : t.m_exiting = false)
    (hp : path ≠ t.m_pathBeingProcessed)
    (hu : (t.m_tasks.map (fun task => task.path)).Nodup) :
    (t.requestStatusUpdates path (r1 :: rows)).m_tasks.filter
        (fun task => decide (task.path = path))
      = [⟨path, ((t.m_tasks.find? (fun task => decide (task.path = path))).map
          (fun task => task.row)).getD r1⟩] ∧
    (t.requestStatusUpdates path (r1 :: rows)).m_tasks.getLast?
      = some ⟨path, ((t.m_tasks.find? (fun task => decide (task.path = path))).map
          (fun task => task.row)).getD r1⟩ := by
  have hfront := eraseP_path_of_nodup path t.m_tasks hu
  have hfirst : (t.requestStatusUpdate path r1).m_tasks
      = t.m_tasks.eraseP (fun task => decide (task.path = path)) ++
        [⟨path, ((t.m_tasks.find? (fun task => decide (task.path = path))).map
          (fun task => task.row)).getD r1⟩] := by
    rw [requestStatusUpdate_of_accepted t path r1 hex hp]
    show TaskList.request t.m_tasks ⟨path, r1⟩ = _
    rw [request_eq, find?_path_getD]
  have hkeep := requestStatusUpdate_pathBeingProcessed t path r1
  have hall : (t.requestStatusUpdates path (r1 :: rows)).m_tasks
      = t.m_tasks.eraseP (fun task => decide (task.path = path)) ++
        [⟨path, ((t.m_tasks.find? (fun task => decide (task.path = path))).map
          (fun task => task.row)).getD r1⟩] :=
    requestStatusUpdates_of_last path _ _ rfl hfront rows (t.requestStatusUpdate path r1)
      (hkeep.2.trans hex) (hkeep.1 ▸ hp) hfirst
  rw [hall]
  constructor
  · rw [List.filter_append, List.filter_eq_nil_iff.2 (fun task hmem => by simpa using hfront task hmem)]
    simp
  · simp

/-- C13 amended, at a queue that holds `(/b, 7)` and `(/a, 5)`: three requests for
`/a` with rows 1, 2 and 3 leave the task `(/a, 5)`, moved to the end. -/
theorem requestStatusUpdates_single_task_witness :
    (StatusUpdateThread.requestStatusUpdates
        ⟨[⟨"/a".toList, 5⟩, ⟨"/b".toList, 7⟩], [], false, true⟩ "/a".toList [1, 2, 3]).m_tasks
      = [⟨"/b".toList, 7⟩, ⟨"/a".toList, 5⟩] ∧
    (StatusUpdateThread.requestStatusUpdates
        ⟨[⟨"/a".toList, 5⟩, ⟨"/b".toList, 7⟩], [], false, true⟩ "/a".toList
          [1, 2, 3]).m_tasks.getLast?
      = some ⟨"/a".toList, 5⟩ :=
  ⟨by decide,
    (requestStatusUpdates_single_task
      ⟨[⟨"/a".toList, 5⟩, ⟨"/b".toList, 7⟩], [], false, true⟩ "/a".toList 1 [2, 3]
      rfl (by decide) (by decide)).2⟩

/-- C14, the code at the failing input: on a queue that holds the task `(/x, 0)`
with no probe in progress, after the request `(/y, 1)` the queue is `(/x, 0)`,
`(/y, 1)` and the worker takes `(/x, 0)`, not the task just requested. -/
theorem takeTask_after_request_failing_input :
    ((StatusUpdateThread.init.requestStatusUpdate "/x".toList 0).requestStatusUpdate
        "/y".toList 1).m_tasks = [⟨"/x".toList, 0⟩, ⟨"/y".toList, 1⟩] ∧
      (((StatusUpdateThread.init.requestStatusUpdate "/x".toList 0).requestStatusUpdate
        "/y".toList 1).takeTask.map (fun taken => taken.1)) = some ⟨"/x".toList, 0⟩ := by
  decide

/-- C15 (order after a repeated request). From an empty queue with no probe in
progress, the requests for `a`, then `b`, then `a` again, `a` and `b` being
different non-empty paths, leave exactly two tasks; the worker takes the task of
`b` first and, after it has cleared the path being processed, the task of `a`,
and the queue is then empty. -/
theorem rerequest_order (t : StatusUpdateThread) (a b : QString) (ra rb ra2 : Int)
    (hq : t.m_tasks = []) (hidle : t.m_pathBeingProcessed = []) (hex : t.m_exiting = false)
    (ha : a ≠ []) (hb : b ≠ []) (hab : a ≠ b) :
    (((t.requestStatusUpdate a ra).requestStatusUpdate b rb).requestStatusUpdate a
        ra2).m_tasks.length = 2 ∧
      ∃ t4 t5 : StatusUpdateThread,
        (((t.requestStatusUpdate a ra).requestStatusUpdate b rb).requestStatusUpdate a
          ra2).takeTask = some (⟨b, rb⟩, t4) ∧
        t4.clearPathBeingProcessed.takeTask = some (⟨a, ra⟩, t5) ∧
        t5.m_tasks = [] := by
  have h1 : t.requestStatusUpdate a ra
      = { t with m_tasks := [⟨a, ra⟩], isRunning := true } := by
    rw [requestStatusUpdate_of_accepted t a ra hex (hidle ▸ ha), hq]
    rfl
  have hk1 := requestStatusUpdate_pathBeingProcessed t a ra
  have hreq2 : TaskList.request [⟨a, ra⟩] ⟨b, rb⟩ = [⟨a, ra⟩, ⟨b, rb⟩] := by
    rw [request_cons_neg _ _ _ hab, request_nil]
  have h2 : (t.requestStatusUpdate a ra).requestStatusUpdate b rb
      = { t with m_tasks := [⟨a, ra⟩, ⟨b, rb⟩], isRunning := true } := by
    rw [requestStatusUpdate_of_accepted (t.requestStatusUpdate a ra) b rb (hk1.2.trans hex)
      (by rw [hk1.1, hidle]; exact hb), h1]
    dsimp only
    rw [hreq2]
  have hk2 := requestStatusUpdate_pathBeingProcessed (t.requestStatusUpdate a ra) b rb
  have hreq3 : TaskList.request [⟨a, ra⟩, ⟨b, rb⟩] ⟨a, ra2⟩ = [⟨b, rb⟩, ⟨a, ra⟩] := by
    exact request_cons_pos ⟨a, ra⟩ ⟨a, ra2⟩ [⟨b, rb⟩] rfl
  have h3 : ((t.requestStatusUpdate a ra).requestStatusUpdate b rb).requestStatusUpdate a ra2
      = { t with m_tasks := [⟨b, rb⟩, ⟨a, ra⟩], isRunning := true } := by
    rw [requestStatusUpdate_of_accepted _ a ra2 ((hk2.2.trans hk1.2).trans hex)
      (by rw [hk2.1, hk1.1, hidle]; exact ha), h2]
    dsimp only
    rw [hreq3]
  rw [h3]
  refine ⟨rfl,
    { t with m_tasks := [⟨a, ra⟩], m_pathBeingProcessed := b, isRunning := true },
    { t with m_tasks := [], m_pathBeingProcessed := a, isRunning := true }, ?_, ?_, rfl⟩
  · simp [StatusUpdateThread.takeTask, hex]
  · simp [StatusUpdateThread.takeTask, StatusUpdateThread.clearPathBeingProcessed, hex]

/-- C15, at the paths `/a` and `/b` on a fresh queue. -/
theorem rerequest_order_witness :
    (((StatusUpdateThread.init.requestStatusUpdate "/a".toList 0).requestStatusUpdate
        "/b".toList 1).requestStatusUpdate "/a".toList 2).m_tasks
      = [⟨"/b".toList, 1⟩, ⟨"/a".toList, 0⟩] ∧
    (((StatusUpdateThread.init.requestStatusUpdate "/a".toList 0).requestStatusUpdate
        "/b".toList 1).requestStatusUpdate "/a".toList 2).m_tasks.length = 2 :=
  ⟨by decide,
    (rerequest_order StatusUpdateThread.init "/a".toList "/b".toList 0 1 2 rfl rfl rfl
      (by decide) (by decide) (by decide)).1⟩

/-! ## Invariants of the reachable states -/

theorem run_invariant (P : System → Prop)
    (hstep : ∀ (s : System) (a : Action) (s1 : System), P s → s.step a = some s1 → P s1) :
    ∀ (actions : List Action) (s s1 : System), P s → System.run s actions = some s1 → P s1
  | [], s, s1, hs, hrun => by
    simp only [System.run, Option.some.injEq] at hrun
    exact hrun ▸ hs
  | a :: rest, s, s1, hs, hrun => by
    simp only [System.run] at hrun
    cases hstepa : s.step a with
    | none => rw [hstepa] at hrun; exact Option.noConfusion hrun
    | some s2 =>
      rw [hstepa] at hrun
      exact run_invariant P hstep rest s2 s1 (hstep s a s2 hs hstepa) hrun

theorem reachable_invariant (P : System → Prop) (hinit : P System.init)
    (hstep : ∀ (s : System) (a : Action) (s1 : System), P s → s.step a = some s1 → P s1)
    (s : System) (hs : s.Reachable) : P s := by
  obtain ⟨actions, hrun⟩ := hs
  exact run_invariant P hstep actions System.init s hinit hrun

theorem addPath_thread (m : RelinkingModel) (path : RelinkablePath) :
    (m.addPath path).1.m_statusUpdateThread.m_pathBeingProcessed
        = m.m_statusUpdateThread.m_pathBeingProcessed ∧
      (m.addPath path).1.m_statusUpdateThread.m_exiting = m.m_statusUpdateThread.m_exiting := by
  by_cases h : path.normalizedPath ∈ m.m_origPathSet
  · rw [addPath_of_mem m path h]
    exact ⟨rfl, rfl⟩
  · rw [addPath_of_not_mem m path h]
    exact requestStatusUpdate_pathBeingProcessed _ _ _

theorem replacePrefixLoop_thread (pfx slashTerminatedPrefix replacement : QString)
    (type : PathType) :
    ∀ (items : List Item) (row rowspanBegin : Int) (flag : Bool) (th : StatusUpdateThread),
      (replacePrefixLoop pfx slashTerminatedPrefix replacement type items row rowspanBegin
          flag th).thread.m_pathBeingProcessed = th.m_pathBeingProcessed ∧
      (replacePrefixLoop pfx slashTerminatedPrefix replacement type items row rowspanBegin
          flag th).thread.m_exiting = th.m_exiting
  | [], _, _, _, _ => ⟨rfl, rfl⟩
  | item :: rest, row, rowspanBegin, flag, th => by
    simp only [replacePrefixLoop]
    split_ifs with h1 h2 h3
    · have ih := replacePrefixLoop_thread pfx slashTerminatedPrefix replacement type rest
        (row + 1) (row + 1) true
        (requestStatusUpdateItem
          (replacePrefixItem pfx slashTerminatedPrefix replacement type item).1 (row + 1) th).2.1
      have hk := requestStatusUpdate_pathBeingProcessed th
        (replacePrefixItem pfx slashTerminatedPrefix replacement type item).1.uncommittedPath
        (row + 1)
      exact ⟨ih.1.trans hk.1, ih.2.trans hk.2⟩
    · have ih := replacePrefixLoop_thread pfx slashTerminatedPrefix replacement type rest
        (row + 1) rowspanBegin true
        (requestStatusUpdateItem
          (replacePrefixItem pfx slashTerminatedPrefix replacement type item).1 (row + 1) th).2.1
      have hk := requestStatusUpdate_pathBeingProcessed th
        (replacePrefixItem pfx slashTerminatedPrefix replacement type item).1.uncommittedPath
        (row + 1)
      exact ⟨ih.1.trans hk.1, ih.2.trans hk.2⟩
    · exact replacePrefixLoop_thread pfx slashTerminatedPrefix replacement type rest _ _ _ _
    · exact replacePrefixLoop_thread pfx slashTerminatedPrefix replacement type rest _ _ _ _

theorem replacePrefix_thread (m : RelinkingModel) (pfx replacement : QString)
    (type : PathType) :
    (m.replacePrefix pfx replacement type).1.m_statusUpdateThread.m_pathBeingProcessed
        = m.m_statusUpdateThread.m_pathBeingProcessed ∧
      (m.replacePrefix pfx replacement type).1.m_statusUpdateThread.m_exiting
        = m.m_statusUpdateThread.m_exiting :=
  replacePrefixLoop_thread pfx _ replacement type m.m_items _ _ _ _

theorem commitChanges_thread (m : RelinkingModel) :
    m.commitChanges.1.m_statusUpdateThread = m.m_statusUpdateThread := by
  unfold RelinkingModel.commitChanges
  split_ifs <;> rfl

theorem rollbackChanges_thread (m : RelinkingModel) :
    m.rollbackChanges.1.m_statusUpdateThread = m.m_statusUpdateThread := by
  unfold RelinkingModel.rollbackChanges
  split_ifs <;> rfl

theorem customEvent_thread (m : RelinkingModel) (response : StatusUpdateResponse) :
    (m.customEvent response).1.m_statusUpdateThread = m.m_statusUpdateThread := by
  unfold RelinkingModel.customEvent
  split_ifs with h
  · rfl
  · cases hget : m.m_items.get? response.m_row.toNat <;> rfl

theorem workerConsistent_of_thread (s s1 : System) (hs : s.WorkerConsistent)
    (hw : s1.worker = s.worker)
    (hp : s1.model.m_statusUpdateThread.m_pathBeingProcessed
      = s.model.m_statusUpdateThread.m_pathBeingProcessed)
    (hex : s1.model.m_statusUpdateThread.m_exiting = s.model.m_statusUpdateThread.m_exiting) :
    s1.WorkerConsistent := by
  have hprog : s1.pathInProgress = s.pathInProgress := by
    unfold System.pathInProgress
    rw [hw, hp]
  exact ⟨hex.trans hs.1, by rw [hprog, hp]; exact hs.2⟩

theorem step_workerConsistent (s : System) (a : Action) (s1 : System)
    (hs : s.WorkerConsistent) (hstep : s.step a = some s1) : s1.WorkerConsistent := by
  have hex := hs.1
  cases a with
  | addPath path =>
    simp only [System.step, Option.some.injEq] at hstep
    subst hstep
    have hk := addPath_thread s.model path
    exact workerConsistent_of_thread s _ hs rfl hk.1 hk.2
  | replacePrefix pfx replacement type =>
    simp only [System.step, Option.some.injEq] at hstep
    subst hstep
    have hk := replacePrefix_thread s.model pfx replacement type
    exact workerConsistent_of_thread s _ hs rfl hk.1 hk.2
  | commitChanges =>
    simp only [System.step, Option.some.injEq] at hstep
    subst hstep
    exact workerConsistent_of_thread s _ hs rfl
      (congrArg _ (commitChanges_thread s.model)) (congrArg _ (commitChanges_thread s.model))
  | rollbackChanges =>
    simp only [System.step, Option.some.injEq] at hstep
    subst hstep
    exact workerConsistent_of_thread s _ hs rfl
      (congrArg _ (rollbackChanges_thread s.model)) (congrArg _ (rollbackChanges_thread s.model))
  | workerTake =>
    unfold System.step at hstep
    cases hw : s.worker with
    | waiting =>
      rw [hw] at hstep
      simp only at hstep
      split_ifs at hstep with hrun
      cases htake : s.model.m_statusUpdateThread.takeTask with
      | none => rw [htake] at hstep; exact Option.noConfusion hstep
      | some taken =>
        obtain ⟨task, th⟩ := taken
        rw [htake] at hstep
        simp only [Option.some.injEq] at hstep
        subst hstep
        unfold StatusUpdateThread.takeTask at htake
        rw [if_neg (by simp [hex])] at htake
        cases htasks : s.model.m_statusUpdateThread.m_tasks with
        | nil => rw [htasks] at htake; exact Option.noConfusion htake
        | cons first rest =>
          rw [htasks] at htake
          simp only [Option.some.injEq, Prod.mk.injEq] at htake
          obtain ⟨h1, h2⟩ := htake
          subst h1 h2
          exact ⟨hex, rfl⟩
    | checking task => rw [hw] at hstep; exact Option.noConfusion hstep
    | posted => rw [hw] at hstep; exact Option.noConfusion hstep
  | workerCheck fileExists =>
    unfold System.step at hstep
    cases hw : s.worker with
    | waiting => rw [hw] at hstep; exact Option.noConfusion hstep
    | checking task =>
      rw [hw] at hstep
      simp only [Option.some.injEq] at hstep
      subst hstep
      exact ⟨hex, rfl⟩
    | posted => rw [hw] at hstep; exact Option.noConfusion hstep
  | workerClear =>
    unfold System.step at hstep
    cases hw : s.worker with
    | waiting => rw [hw] at hstep; exact Option.noConfusion hstep
    | checking task => rw [hw] at hstep; exact Option.noConfusion hstep
    | posted =>
      rw [hw] at hstep
      simp only [Option.some.injEq] at hstep
      subst hstep
      exact ⟨hex, rfl⟩
  | deliverEvent =>
    unfold System.step at hstep
    cases hev : s.events with
    | nil => rw [hev] at hstep; exact Option.noConfusion hstep
    | cons response rest =>
      rw [hev] at hstep
      simp only [Option.some.injEq] at hstep
      subst hstep
      exact workerConsistent_of_thread s _ hs rfl
        (congrArg _ (customEvent_thread s.model response))
        (congrArg _ (customEvent_thread s.model response))

theorem reachable_workerConsistent (s : System) (hs : s.Reachable) : s.WorkerConsistent :=
  reachable_invariant System.WorkerConsistent ⟨rfl, rfl⟩ step_workerConsistent s hs

/-! ## Requests against the probe in progress -/

/-- C16, the code at the failing input: in the reachable state `exampleAdded` stop
was not requested and no probe is in progress, yet a request for the empty path
leaves the queue unchanged, with no task for the empty path in it; `addPath` of
the empty path issues this request for its new row 2 and the queue stays as it
was. The same request is accepted in `exampleChecking`, where the probe of `/a`
is in progress. -/
theorem request_idle_failing_input :
    exampleAdded.Reachable ∧
      exampleAdded.model.m_statusUpdateThread.m_exiting = false ∧
      exampleAdded.pathInProgress = none ∧
      exampleAdded.model.m_statusUpdateThread.requestStatusUpdate [] 2
        = exampleAdded.model.m_statusUpdateThread ∧
      (∀ task ∈ (exampleAdded.model.m_statusUpdateThread.requestStatusUpdate [] 2).m_tasks,
        task.path ≠ []) ∧
      (exampleAdded.model.addPath ⟨[], PathType.Dir⟩).2
        = [Effect.rowsInserted 2 2, Effect.statusUpdateRequested [] 2] ∧
      (exampleAdded.model.addPath ⟨[], PathType.Dir⟩).1.m_statusUpdateThread
        = exampleAdded.model.m_statusUpdateThread ∧
      exampleChecking.Reachable ∧
      exampleChecking.pathInProgress = some "/a".toList ∧
      (exampleChecking.model.m_statusUpdateThread.requestStatusUpdate [] 2).m_tasks
        = [⟨"/b".toList, 1⟩, ⟨[], 2⟩] :=
  ⟨⟨exampleAddedActions, by decide⟩, by decide, by decide, by decide, by decide, by decide,
    by decide, ⟨exampleCheckingActions, by decide⟩, by decide, by decide⟩

/-- Away from the empty path requested while no probe is in progress, the queue of
a reachable state drops a request exactly when a probe for its path is in
progress: such a request leaves the queue unchanged, and a request for a path
with no probe in progress, the path being non-empty or some other probe being in
progress, leaves a task for the path in the queue. -/
theorem request_dropped_iff_in_progress (s : System) (hs : s.Reachable) (path : QString)
    (row : Int) :
    (s.pathInProgress = some path →
        s.model.m_statusUpdateThread.requestStatusUpdate path row
          = s.model.m_statusUpdateThread) ∧
      (s.pathInProgress ≠ some path → (path ≠ [] ∨ s.pathInProgress ≠ none) →
        ∃ task ∈ (s.model.m_statusUpdateThread.requestStatusUpdate path row).m_tasks,
          task.path = path) := by
  obtain ⟨hex, hpbp⟩ := reachable_workerConsistent s hs
  refine ⟨fun hin => ?_, fun hnot hor => ?_⟩
  · refine requestStatusUpdate_of_in_progress _ path row ?_
    rw [hpbp, hin]
    rfl
  · have hp : path ≠ s.model.m_statusUpdateThread.m_pathBeingProcessed := by
      rw [hpbp]
      cases hprog : s.pathInProgress with
      | none =>
        rcases hor with h | h
        · exact h
        · exact absurd hprog h
      | some other =>
        intro heq
        exact hnot (by rw [hprog, heq]; rfl)
    rw [requestStatusUpdate_of_accepted _ path row hex hp]
    show ∃ task ∈ TaskList.request s.model.m_statusUpdateThread.m_tasks ⟨path, row⟩,
      task.path = path
    rw [request_eq, find?_path_getD]
    exact ⟨_, List.mem_append_right _ (List.mem_singleton_self _), rfl⟩

/-! ## Notifications of replacePrefix -/

/-- C19, the code at the failing input: the directory replacement of `/a` by `/c`
on `exampleRuns` modifies rows 0, 1 and 3, whose maximal runs are rows 0 to 1 and
row 3; the signals emitted are the ranges 0-0, 0-1, 0-2, 3-3 and 3-3. -/
theorem replacePrefix_notifications_failing_input :
    (exampleRuns.replacePrefix "/a".toList "/c".toList PathType.Dir).1.m_items.map
        (fun item => item.uncommittedPath)
      = ["/c/x".toList, "/c/y".toList, "/b/z".toList, "/c/w".toList] ∧
    dataChangedRanges (exampleRuns.replacePrefix "/a".toList "/c".toList PathType.Dir).2
      = [(0, 0), (0, 1), (0, 2), (3, 3), (3, 3)] := by
  decide

/-! ## Soundness of the flag -/

theorem addPath_flagSound (m : RelinkingModel) (path : RelinkablePath) (hm : m.FlagSound) :
    (m.addPath path).1.FlagSound := by
  by_cases h : path.normalizedPath ∈ m.m_origPathSet
  · rw [addPath_of_mem m path h]; exact hm
  · rw [addPath_of_not_mem m path h]
    intro hflag item hitem
    rcases List.mem_append.1 hitem with hold | hnew
    · exact hm hflag item hold
    · rw [List.mem_singleton.1 hnew]
      rfl

theorem commitChanges_flagSound (m : RelinkingModel) (hm : m.FlagSound) :
    m.commitChanges.1.FlagSound := by
  cases hflag : m.m_haveUncommittedChanges with
  | false =>
    rw [commitChanges_of_not_flag m hflag]
    exact hm
  | true =>
    rw [commitChanges_of_flag m hflag]
    intro _ item hitem
    obtain ⟨old, _, rfl⟩ := List.mem_map.1 hitem
    unfold commitEntry
    split_ifs with hc
    · rfl
    · exact (not_not.1 hc).symm

theorem rollbackChanges_flagSound (m : RelinkingModel) (hm : m.FlagSound) :
    m.rollbackChanges.1.FlagSound := by
  cases hflag : m.m_haveUncommittedChanges with
  | false =>
    rw [rollbackChanges_of_not_flag m hflag]
    exact hm
  | true =>
    rw [rollbackChanges_of_flag m hflag]
    intro _ item hitem
    obtain ⟨old, _, rfl⟩ := List.mem_map.1 hitem
    unfold rollbackEntry
    split_ifs with hc
    · rfl
    · exact not_not.1 hc

theorem applyCall_flagSound (m : RelinkingModel) (call : Call) (hm : m.FlagSound) :
    (m.applyCall call).FlagSound := by
  cases call with
  | addPath path => exact addPath_flagSound m path hm
  | replacePrefix pfx replacement type => exact replacePrefix_flagSound m pfx replacement type hm
  | commitChanges => exact commitChanges_flagSound m hm
  | rollbackChanges => exact rollbackChanges_flagSound m hm
  | probeResult response => exact customEvent_flagSound m response hm

theorem applyCalls_flagSound (calls : List Call) :
    ∀ m : RelinkingModel, m.FlagSound → (m.applyCalls calls).FlagSound := by
  induction calls with
  | nil => exact fun m hm => hm
  | cons call rest ih => exact fun m hm => ih (m.applyCall call) (applyCall_flagSound m call hm)

theorem init_flagSound : RelinkingModel.init.FlagSound := by
  intro _ item hitem
  simp [RelinkingModel.init] at hitem

theorem step_flagSound (s : System) (a : Action) (s1 : System) (hs : s.model.FlagSound)
    (hstep : s.step a = some s1) : s1.model.FlagSound := by
  cases a with
  | addPath path =>
    simp only [System.step, Option.some.injEq] at hstep
    subst hstep
    exact addPath_flagSound s.model path hs
  | replacePrefix pfx replacement type =>
    simp only [System.step, Option.some.injEq] at hstep
    subst hstep
    exact replacePrefix_flagSound s.model pfx replacement type hs
  | commitChanges =>
    simp only [System.step, Option.some.injEq] at hstep
    subst hstep
    exact commitChanges_flagSound s.model hs
  | rollbackChanges =>
    simp only [System.step, Option.some.injEq] at hstep
    subst hstep
    exact rollbackChanges_flagSound s.model hs
  | workerTake =>
    unfold System.step at hstep
    cases hw : s.worker with
    | waiting =>
      rw [hw] at hstep
      simp only at hstep
      split_ifs at hstep with hrun
      cases htake : s.model.m_statusUpdateThread.takeTask with
      | none => rw [htake] at hstep; exact Option.noConfusion hstep
      | some taken =>
        rw [htake] at hstep
        simp only [Option.some.injEq] at hstep
        subst hstep
        exact hs
    | checking task => rw [hw] at hstep; exact Option.noConfusion hstep
    | posted => rw [hw] at hstep; exact Option.noConfusion hstep
  | workerCheck fileExists =>
    unfold System.step at hstep
    cases hw : s.worker with
    | waiting => rw [hw] at hstep; exact Option.noConfusion hstep
    | checking task =>
      rw [hw] at hstep
      simp only [Option.some.injEq] at hstep
      subst hstep
      exact hs
    | posted => rw [hw] at hstep; exact Option.noConfusion hstep
  | workerClear =>
    unfold System.step at hstep
    cases hw : s.worker with
    | waiting => rw [hw] at hstep; exact Option.noConfusion hstep
    | checking task => rw [hw] at hstep; exact Option.noConfusion hstep
    | posted =>
      rw [hw] at hstep
      simp only [Option.some.injEq] at hstep
      subst hstep
      exact hs
  | deliverEvent =>
    unfold System.step at hstep
    cases hev : s.events with
    | nil => rw [hev] at hstep; exact Option.noConfusion hstep
    | cons response rest =>
      rw [hev] at hstep
      simp only [Option.some.injEq] at hstep
      subst hstep
      exact customEvent_flagSound s.model response hs

/-- C20 (soundness of the flag). In every registry obtained from a fresh one by a
sequence of `addPath`, `replacePrefix`, `commitChanges`, `rollbackChanges` calls
and applied probe results, whatever these results are, a clear flag implies that
every entry has its uncommitted path equal to its committed path, so that the
early return of `commitChanges` and of `rollbackChanges`, which leaves the
registry as it is, skips no staged edit; the same holds in every state the system
reaches with its worker running. -/
theorem flag_sound :
    (∀ calls : List Call,
      (RelinkingModel.init.applyCalls calls).m_haveUncommittedChanges = false →
        (∀ item ∈ (RelinkingModel.init.applyCalls calls).m_items,
          item.uncommittedPath = item.committedPath) ∧
        (RelinkingModel.init.applyCalls calls).commitChanges
          = (RelinkingModel.init.applyCalls calls, []) ∧
        (RelinkingModel.init.applyCalls calls).rollbackChanges
          = (RelinkingModel.init.applyCalls calls, [])) ∧
    (∀ s : System, s.Reachable → s.model.m_haveUncommittedChanges = false →
      ∀ item ∈ s.model.m_items, item.uncommittedPath = item.committedPath) := by
  constructor
  · intro calls hflag
    exact ⟨applyCalls_flagSound calls RelinkingModel.init init_flagSound hflag,
      commitChanges_of_not_flag _ hflag, rollbackChanges_of_not_flag _ hflag⟩
  · intro s hs
    exact reachable_invariant (fun s => s.model.FlagSound) init_flagSound step_flagSound s hs

/-- C20, at the calls that add the file `/a`, relink it to `/b` and commit: the flag
is clear and the entry has no staged edit. -/
theorem flag_sound_witness :
    (RelinkingModel.init.applyCalls
        [Call.addPath ⟨"/a".toList, PathType.File⟩,
          Call.replacePrefix "/a".toList "/b".toList PathType.File,
          Call.commitChanges]).m_haveUncommittedChanges = false ∧
      ∀ item ∈ (RelinkingModel.init.applyCalls
          [Call.addPath ⟨"/a".toList, PathType.File⟩,
            Call.replacePrefix "/a".toList "/b".toList PathType.File,
            Call.commitChanges]).m_items,
        item.uncommittedPath = item.committedPath :=
  ⟨by decide,
    (flag_sound.1
      [Call.addPath ⟨"/a".toList, PathType.File⟩,
        Call.replacePrefix "/a".toList "/b".toList PathType.File,
        Call.commitChanges] (by decide)).1⟩

/-! ## Probing from end to end -/

theorem addPaths_cons (m : RelinkingModel) (path : RelinkablePath)
    (rest : List RelinkablePath) :
    m.addPaths (path :: rest) = (m.addPath path).1.addPaths rest := rfl

theorem addPaths_probeTasks :
    ∀ (paths : List RelinkablePath) (m : RelinkingModel),
      m.OrigPathsTracked → m.m_statusUpdateThread.m_exiting = false →
      m.m_statusUpdateThread.m_pathBeingProcessed = [] →
      (∀ t ∈ m.m_statusUpdateThread.m_tasks, t.path ∈ m.m_origPathSet) →
      (paths.map (fun path => path.normalizedPath)).Nodup →
      (∀ path ∈ paths, path.normalizedPath ≠ [] ∧ path.normalizedPath ∉ m.m_origPathSet) →
        (m.addPaths paths).m_items = m.m_items ++ paths.map Item.ofPath ∧
        (m.addPaths paths).m_statusUpdateThread.m_tasks
          = m.m_statusUpdateThread.m_tasks ++ probeTasks m.m_items.length paths ∧
        (m.addPaths paths).m_statusUpdateThread.m_exiting = false ∧
        (m.addPaths paths).m_statusUpdateThread.m_pathBeingProcessed = []
  | [], m, _, hex, hidle, _, _, _ => by
    simp [RelinkingModel.addPaths, probeTasks, hex, hidle]
  | path :: rest, m, htracked, hex, hidle, htasks, hd, hnew => by
    rw [List.map_cons, List.nodup_cons] at hd
    obtain ⟨hne, hnotin⟩ := hnew path (List.mem_cons_self _ _)
    have hfresh : ∀ t ∈ m.m_statusUpdateThread.m_tasks,
        ¬ (decide (t.path = path.normalizedPath) = true) := by
      intro t ht hdec
      exact hnotin ((of_decide_eq_true hdec) ▸ htasks t ht)
    have hreq : (m.m_statusUpdateThread.requestStatusUpdate path.normalizedPath
        (m.m_items.length : Int)).m_tasks
        = m.m_statusUpdateThread.m_tasks ++ [⟨path.normalizedPath, (m.m_items.length : Int)⟩] := by
      rw [requestStatusUpdate_of_accepted _ _ _ hex (hidle ▸ hne)]
      show TaskList.request m.m_statusUpdateThread.m_tasks ⟨path.normalizedPath, _⟩ = _
      rw [request_eq, List.eraseP_of_forall_not hfresh, List.find?_eq_none.2 hfresh]
      rfl
    have hkeep := requestStatusUpdate_pathBeingProcessed m.m_statusUpdateThread
      path.normalizedPath (m.m_items.length : Int)
    have hstep := addPath_of_not_mem m path hnotin
    have ih := addPaths_probeTasks rest (m.addPath path).1
      (addPath_origPathsTracked m path htracked)
      (by rw [hstep]; exact hkeep.2.trans hex)
      (by rw [hstep]; exact hkeep.1.trans hidle)
      (by
        rw [hstep]
        intro t ht
        rw [show ({ m with
              m_origPathSet := m.m_origPathSet ++ [path.normalizedPath]
              m_items := m.m_items ++ [Item.ofPath path]
              m_statusUpdateThread :=
                m.m_statusUpdateThread.requestStatusUpdate path.normalizedPath
                  m.m_items.length } : RelinkingModel).m_statusUpdateThread.m_tasks
            = _ from hreq] at ht
        rcases List.mem_append.1 ht with hold | hlast
        · exact List.mem_append_left _ (htasks t hold)
        · rw [List.mem_singleton.1 hlast]
          exact List.mem_append_right _ (List.mem_singleton_self _))
      hd.2
      (by
        intro other hother
        refine ⟨(hnew other (List.mem_cons_of_mem _ hother)).1, ?_⟩
        rw [addPath_mem_origPathSet]
        rintro (hin | heq)
        · exact (hnew other (List.mem_cons_of_mem _ hother)).2 hin
        · exact hd.1 (List.mem_map.2 ⟨other, hother, heq⟩))
    rw [addPaths_cons]
    refine ⟨?_, ?_, ih.2.2.1, ih.2.2.2⟩
    · rw [ih.1, hstep]
      simp
    · rw [ih.2.1, hstep]
      show (m.m_statusUpdateThread.requestStatusUpdate path.normalizedPath
          (m.m_items.length : Int)).m_tasks ++ _ = _
      rw [hreq]
      simp [probeTasks]

theorem probeTasks_length : ∀ (paths : List RelinkablePath) (row : Nat),
    (probeTasks row paths).length = paths.length
  | [], _ => rfl
  | _ :: rest, row => by simp [probeTasks, probeTasks_length rest (row + 1)]

theorem run_of_tasks (fileExists : QString → Bool) :
    ∀ (tasks : List Task) (fuel : Nat) (t : StatusUpdateThread),
      t.m_tasks = tasks → t.m_exiting = false → t.m_pathBeingProcessed = [] →
      tasks.length ≤ fuel →
        t.run fileExists fuel
          = ({ t with m_tasks := [] },
              tasks.map (fun task =>
                StatusUpdateThread.responseFor task (fileExists task.path)))
  | [], fuel, t, htasks, _, _, _ => by
    have ht : ({ t with m_tasks := [] } : StatusUpdateThread) = t := by
      cases t
      simp_all
    rw [ht]
    cases fuel with
    | zero => rfl
    | succ fuel =>
      simp [StatusUpdateThread.run, StatusUpdateThread.runIteration,
        StatusUpdateThread.takeTask, htasks]
  | task :: rest, 0, _, _, _, _, hfuel => by simp at hfuel
  | task :: rest, fuel + 1, t, htasks, hex, hidle, hfuel => by
    have hiter : t.runIteration fileExists
        = some ({ t with m_tasks := rest },
            StatusUpdateThread.responseFor task (fileExists task.path)) := by
      simp [StatusUpdateThread.runIteration, StatusUpdateThread.takeTask, htasks, hex,
        StatusUpdateThread.clearPathBeingProcessed, hidle]
    have ih := run_of_tasks fileExists rest fuel { t with m_tasks := rest } rfl hex hidle
      (by simpa using hfuel)
    simp only [StatusUpdateThread.run, hiter, ih, List.map_cons]

theorem customEventEntry_ofPath (fileExists : QString → Bool) (path : RelinkablePath)
    (row : Int) :
    customEventEntry
        (StatusUpdateThread.responseFor ⟨path.normalizedPath, row⟩
          (fileExists path.normalizedPath))
        (Item.ofPath path)
      = Item.probed fileExists path := by
  simp [customEventEntry, StatusUpdateThread.responseFor, Item.ofPath, Item.probed]

theorem deliver_probeResults (fileExists : QString → Bool) :
    ∀ (paths : List RelinkablePath) (done : List Item) (m : RelinkingModel),
      m.m_items = done ++ paths.map Item.ofPath →
        ((probeTasks done.length paths).map (fun task =>
            StatusUpdateThread.responseFor task (fileExists task.path))).foldl
          (fun acc response => (acc.customEvent response).1) m
          = { m with m_items := done ++ paths.map (Item.probed fileExists) }
  | [], done, m, hitems => by
    cases m
    simp_all [probeTasks]
  | path :: rest, done, m, hitems => by
    have hget : m.m_items[((done.length : Nat) : Int).toNat]? = some (Item.ofPath path) := by
      rw [hitems, List.map_cons, Int.toNat_ofNat,
        List.getElem?_append_right (Nat.le_refl _), Nat.sub_self]
      simp
    have hevent : (m.customEvent
        (StatusUpdateThread.responseFor ⟨path.normalizedPath, (done.length : Int)⟩
          (fileExists path.normalizedPath))).1
        = { m with m_items := m.m_items.set done.length (Item.probed fileExists path) } := by
      rw [customEvent_of_in_range m _ (Item.ofPath path)
        (by simp [StatusUpdateThread.responseFor])
        (by simpa [StatusUpdateThread.responseFor] using hget), customEventEntry_ofPath]
      rfl
    have hset : m.m_items.set done.length (Item.probed fileExists path)
        = (done ++ [Item.probed fileExists path]) ++ rest.map Item.ofPath := by
      rw [hitems]
      simp
    have ih := deliver_probeResults fileExists rest (done ++ [Item.probed fileExists path])
      { m with m_items := m.m_items.set done.length (Item.probed fileExists path) } hset
    simp only [List.length_append, List.length_singleton] at ih
    simp only [probeTasks, List.map_cons, List.foldl_cons]
    rw [hevent, ih]
    simp

theorem processProbes_addPaths (fileExists : QString → Bool) (paths : List RelinkablePath)
    (fuel : Nat) (hd : (paths.map (fun path => path.normalizedPath)).Nodup)
    (hne : ∀ path ∈ paths, path.normalizedPath ≠ []) (hfuel : paths.length ≤ fuel) :
    ((RelinkingModel.init.addPaths paths).processProbes fileExists fuel).m_items
        = paths.map (fun path =>
            { origPath := path.normalizedPath, committedPath := path.normalizedPath,
              uncommittedPath := path.normalizedPath, type := path.type,
              committedStatus :=
                if fileExists path.normalizedPath then Status.Exists else Status.Missing,
              uncommittedStatus :=
                if fileExists path.normalizedPath then Status.Exists else Status.Missing }) ∧
      ((RelinkingModel.init.addPaths paths).processProbes fileExists
          fuel).m_statusUpdateThread.m_tasks = [] := by
  obtain ⟨hitems, htasks, hex, hidle⟩ :=
    addPaths_probeTasks paths RelinkingModel.init init_origPathsTracked rfl rfl
      (by intro t ht; simp [RelinkingModel.init, StatusUpdateThread.init] at ht) hd
      (fun path hpath => ⟨hne path hpath, by simp [RelinkingModel.init]⟩)
  have htasks0 : (RelinkingModel.init.addPaths paths).m_statusUpdateThread.m_tasks
      = probeTasks 0 paths := by
    rw [htasks]
    simp [RelinkingModel.init, StatusUpdateThread.init]
  have hitems0 : (RelinkingModel.init.addPaths paths).m_items
      = [] ++ paths.map Item.ofPath := by
    rw [hitems]
    simp [RelinkingModel.init]
  have hrun := run_of_tasks fileExists (probeTasks 0 paths) fuel
    (RelinkingModel.init.addPaths paths).m_statusUpdateThread htasks0 hex hidle
    (by rw [probeTasks_length]; exact hfuel)
  have hdeliver := deliver_probeResults fileExists paths []
    { RelinkingModel.init.addPaths paths with
      m_statusUpdateThread :=
        { (RelinkingModel.init.addPaths paths).m_statusUpdateThread with m_tasks := [] } }
    hitems0
  unfold RelinkingModel.processProbes
  rw [hrun]
  simp only [List.length_nil] at hdeliver
  rw [hdeliver]
  exact ⟨rfl, rfl⟩

/-! ## One task per path -/

theorem request_nodup (task : Task) (tasks : List Task)
    (hu : (tasks.map (fun t => t.path)).Nodup) :
    ((TaskList.request tasks task).map (fun t => t.path)).Nodup := by
  rw [request_eq, find?_path_getD, List.map_append]
  refine List.Nodup.append ?_ (List.nodup_singleton _) ?_
  · exact List.Nodup.sublist (List.Sublist.map _ (List.eraseP_sublist tasks)) hu
  · intro x hx hlast
    rw [List.map_singleton, List.mem_singleton] at hlast
    obtain ⟨t, ht, rfl⟩ := List.mem_map.1 hx
    exact eraseP_path_of_nodup task.path tasks hu t ht hlast

theorem requestStatusUpdate_nodup (t : StatusUpdateThread) (path : QString) (row : Int)
    (hu : (t.m_tasks.map (fun task => task.path)).Nodup) :
    ((t.requestStatusUpdate path row).m_tasks.map (fun task => task.path)).Nodup := by
  unfold StatusUpdateThread.requestStatusUpdate
  split_ifs
  · exact hu
  · exact hu
  · exact request_nodup ⟨path, row⟩ t.m_tasks hu

theorem replacePrefixLoop_thread_invariant (P : StatusUpdateThread → Prop)
    (hP : ∀ (t : StatusUpdateThread) (path : QString) (row : Int),
      P t → P (t.requestStatusUpdate path row))
    (pfx slashTerminatedPrefix replacement : QString) (type : PathType) :
    ∀ (items : List Item) (row rowspanBegin : Int) (flag : Bool) (th : StatusUpdateThread),
      P th →
        P (replacePrefixLoop pfx slashTerminatedPrefix replacement type items row rowspanBegin
          flag th).thread
  | [], _, _, _, _, hth => hth
  | item :: rest, row, rowspanBegin, flag, th, hth => by
    simp only [replacePrefixLoop]
    split_ifs with h1 h2 h3
    · exact replacePrefixLoop_thread_invariant P hP pfx slashTerminatedPrefix replacement type
        rest _ _ _ _ (hP th _ _ hth)
    · exact replacePrefixLoop_thread_invariant P hP pfx slashTerminatedPrefix replacement type
        rest _ _ _ _ (hP th _ _ hth)
    · exact replacePrefixLoop_thread_invariant P hP pfx slashTerminatedPrefix replacement type
        rest _ _ _ _ hth
    · exact replacePrefixLoop_thread_invariant P hP pfx slashTerminatedPrefix replacement type
        rest _ _ _ _ hth

theorem step_thread_invariant (P : StatusUpdateThread → Prop)
    (hrequest : ∀ (t : StatusUpdateThread) (path : QString) (row : Int),
      P t → P (t.requestStatusUpdate path row))
    (htake : ∀ (t t1 : StatusUpdateThread) (task : Task),
      P t → t.takeTask = some (task, t1) → P t1)
    (hclear : ∀ t : StatusUpdateThread, P t → P t.clearPathBeingProcessed)
    (s : System) (a : Action) (s1 : System) (hs : P s.model.m_statusUpdateThread)
    (hstep : s.step a = some s1) : P s1.model.m_statusUpdateThread := by
  cases a with
  | addPath path =>
    simp only [System.step, Option.some.injEq] at hstep
    subst hstep
    by_cases h : path.normalizedPath ∈ s.model.m_origPathSet
    · rw [addPath_of_mem s.model path h]; exact hs
    · rw [addPath_of_not_mem s.model path h]; exact hrequest _ _ _ hs
  | replacePrefix pfx replacement type =>
    simp only [System.step, Option.some.injEq] at hstep
    subst hstep
    exact replacePrefixLoop_thread_invariant P hrequest pfx _ replacement type
      s.model.m_items _ _ _ _ hs
  | commitChanges =>
    simp only [System.step, Option.some.injEq] at hstep
    subst hstep
    rw [commitChanges_thread]; exact hs
  | rollbackChanges =>
    simp only [System.step, Option.some.injEq] at hstep
    subst hstep
    rw [rollbackChanges_thread]; exact hs
  | workerTake =>
    unfold System.step at hstep
    cases hw : s.worker with
    | waiting =>
      rw [hw] at hstep
      simp only at hstep
      split_ifs at hstep with hrun
      cases htaken : s.model.m_statusUpdateThread.takeTask with
      | none => rw [htaken] at hstep; exact Option.noConfusion hstep
      | some taken =>
        obtain ⟨task, th⟩ := taken
        rw [htaken] at hstep
        simp only [Option.some.injEq] at hstep
        subst hstep
        exact htake _ _ task hs htaken
    | checking task => rw [hw] at hstep; exact Option.noConfusion hstep
    | posted => rw [hw] at hstep; exact Option.noConfusion hstep
  | workerCheck fileExists =>
    unfold System.step at hstep
    cases hw : s.worker with
    | waiting => rw [hw] at hstep; exact Option.noConfusion hstep
    | checking task =>
      rw [hw] at hstep
      simp only [Option.some.injEq] at hstep
      subst hstep
      exact hs
    | posted => rw [hw] at hstep; exact Option.noConfusion hstep
  | workerClear =>
    unfold System.step at hstep
    cases hw : s.worker with
    | waiting => rw [hw] at hstep; exact Option.noConfusion hstep
    | checking task => rw [hw] at hstep; exact Option.noConfusion hstep
    | posted =>
      rw [hw] at hstep
      simp only [Option.some.injEq] at hstep
      subst hstep
      exact hclear _ hs
  | deliverEvent =>
    unfold System.step at hstep
    cases hev : s.events with
    | nil => rw [hev] at hstep; exact Option.noConfusion hstep
    | cons response rest =>
      rw [hev] at hstep
      simp only [Option.some.injEq] at hstep
      subst hstep
      rw [customEvent_thread]; exact hs

theorem takeTask_nodup (t t1 : StatusUpdateThread) (task : Task)
    (hu : (t.m_tasks.map (fun task => task.path)).Nodup)
    (htake : t.takeTask = some (task, t1)) :
    (t1.m_tasks.map (fun task => task.path)).Nodup := by
  unfold StatusUpdateThread.takeTask at htake
  split_ifs at htake
  cases htasks : t.m_tasks with
  | nil => rw [htasks] at htake; exact Option.noConfusion htake
  | cons first rest =>
    rw [htasks] at htake hu
    simp only [Option.some.injEq, Prod.mk.injEq] at htake
    rw [← htake.2]
    exact (List.nodup_cons.1 hu).2

theorem clearPathBeingProcessed_nodup (t : StatusUpdateThread)
    (hu : (t.m_tasks.map (fun task => task.path)).Nodup) :
    (t.clearPathBeingProcessed.m_tasks.map (fun task => task.path)).Nodup := hu

/-- In every reachable state the queue holds at most one task per path, as the
hashed-unique index of the task list requires. -/
theorem reachable_one_task_per_path (s : System) (hs : s.Reachable) :
    (s.model.m_statusUpdateThread.m_tasks.map (fun task => task.path)).Nodup :=
  reachable_invariant
    (fun s => (s.model.m_statusUpdateThread.m_tasks.map (fun task => task.path)).Nodup)
    List.nodup_nil
    (step_thread_invariant
      (fun t => (t.m_tasks.map (fun task => task.path)).Nodup)
      requestStatusUpdate_nodup takeTask_nodup clearPathBeingProcessed_nodup)
    s hs

/-! ## Probing under any schedule -/

theorem request_fresh (task : Task) (tasks : List Task)
    (h : ∀ t ∈ tasks, t.path ≠ task.path) : TaskList.request tasks task = tasks ++ [task] := by
  have hfresh : ∀ t ∈ tasks, ¬ (decide (t.path = task.path) = true) :=
    fun t ht hdec => h t ht (of_decide_eq_true hdec)
  rw [request_eq, List.eraseP_of_forall_not hfresh, List.find?_eq_none.2 hfresh]
  rfl

theorem getElem?_append_of_some {α : Type} (l l1 : List α) (i : Nat) (a : α)
    (h : l[i]? = some a) : (l ++ l1)[i]? = some a := by
  rw [List.getElem?_append_left (List.getElem?_eq_some.1 h).1]
  exact h

theorem getElem?_append_singleton {α : Type} (l : List α) (x a : α) (i : Nat)
    (h : (l ++ [x])[i]? = some a) : l[i]? = some a ∨ (i = l.length ∧ a = x) := by
  by_cases hi : i < l.length
  · rw [List.getElem?_append_left hi] at h
    exact Or.inl h
  · have hlt := (List.getElem?_eq_some.1 h).1
    rw [List.length_append, List.length_singleton] at hlt
    have hi2 : i = l.length := by omega
    subst hi2
    rw [List.getElem?_concat_length] at h
    exact Or.inr ⟨rfl, (Option.some.inj h).symm⟩

theorem probeInv_init (fileExists : QString → Bool) : ProbeInv fileExists [] System.init where
  tracked := rfl
  exiting := rfl
  inProgress := Or.inl rfl
  tasks := fun task h => by simp [System.init, RelinkingModel.init, StatusUpdateThread.init] at h
  checking := fun task h => by simp [System.init] at h
  events := fun response h => by simp [System.init] at h
  length := rfl
  rows := fun i path h => by simp at h

theorem probeInv_addPath (fileExists : QString → Bool) (paths : List RelinkablePath)
    (s : System) (path : RelinkablePath) (hs : ProbeInv fileExists paths s)
    (hnew : path.normalizedPath ∉ paths.map (fun path => path.normalizedPath))
    (hne : path.normalizedPath ≠ []) :
    ProbeInv fileExists (paths ++ [path]) { s with model := (s.model.addPath path).1 } := by
  have hnotin : path.normalizedPath ∉ s.model.m_origPathSet := hs.tracked ▸ hnew
  have hp : path.normalizedPath ≠ s.model.m_statusUpdateThread.m_pathBeingProcessed := by
    rcases hs.inProgress with h | h
    · rw [h]; exact hne
    · exact fun heq => hnew (heq ▸ h)
  have hfresh : ∀ t ∈ s.model.m_statusUpdateThread.m_tasks, t.path ≠ path.normalizedPath := by
    intro t ht heq
    obtain ⟨i, other, hget, rfl⟩ := hs.tasks t ht
    exact hnew (List.mem_map.2 ⟨other, List.getElem?_mem hget, heq⟩)
  have htasks : (s.model.m_statusUpdateThread.requestStatusUpdate path.normalizedPath
      (s.model.m_items.length : Int)).m_tasks
      = s.model.m_statusUpdateThread.m_tasks ++ [⟨path.normalizedPath, (paths.length : Int)⟩] := by
    rw [requestStatusUpdate_of_accepted _ _ _ hs.exiting hp]
    show TaskList.request s.model.m_statusUpdateThread.m_tasks ⟨path.normalizedPath, _⟩ = _
    rw [request_fresh _ _ hfresh, hs.length]
  have hkeep := requestStatusUpdate_pathBeingProcessed s.model.m_statusUpdateThread
    path.normalizedPath (s.model.m_items.length : Int)
  have hmodel := addPath_of_not_mem s.model path hnotin
  refine
    { tracked := ?_, exiting := ?_, inProgress := ?_, tasks := ?_, checking := ?_,
      events := ?_, length := ?_, rows := ?_ }
  · show (s.model.addPath path).1.m_origPathSet = _
    rw [hmodel, List.map_append, ← hs.tracked]
    rfl
  · show (s.model.addPath path).1.m_statusUpdateThread.m_exiting = false
    rw [hmodel]
    exact hkeep.2.trans hs.exiting
  · show (s.model.addPath path).1.m_statusUpdateThread.m_pathBeingProcessed = [] ∨ _
    rw [hmodel]
    show (s.model.m_statusUpdateThread.requestStatusUpdate _ _).m_pathBeingProcessed = [] ∨
      (s.model.m_statusUpdateThread.requestStatusUpdate _ _).m_pathBeingProcessed ∈ _
    rw [hkeep.1]
    rcases hs.inProgress with h | h
    · exact Or.inl h
    · exact Or.inr (by rw [List.map_append]; exact List.mem_append_left _ h)
  · intro task htask
    have htask2 : task ∈ s.model.m_statusUpdateThread.m_tasks ++
        [⟨path.normalizedPath, (paths.length : Int)⟩] := by
      rw [← htasks]
      have : (s.model.addPath path).1.m_statusUpdateThread
          = s.model.m_statusUpdateThread.requestStatusUpdate path.normalizedPath
            (s.model.m_items.length : Int) := by rw [hmodel]
      rw [← this]
      exact htask
    rcases List.mem_append.1 htask2 with hold | hlast
    · obtain ⟨i, other, hget, heq⟩ := hs.tasks task hold
      exact ⟨i, other, getElem?_append_of_some _ _ _ _ hget, heq⟩
    · exact ⟨paths.length, path, List.getElem?_concat_length _ _, List.mem_singleton.1 hlast⟩
  · intro task hw
    obtain ⟨i, other, hget, heq⟩ := hs.checking task hw
    exact ⟨i, other, getElem?_append_of_some _ _ _ _ hget, heq⟩
  · intro response hr
    obtain ⟨i, other, hget, heq⟩ := hs.events response hr
    exact ⟨i, other, getElem?_append_of_some _ _ _ _ hget, heq⟩
  · show (s.model.addPath path).1.m_items.length = _
    rw [hmodel]
    simp [hs.length]
  · intro i other hget
    have hitems : (s.model.addPath path).1.m_items = s.model.m_items ++ [Item.ofPath path] := by
      rw [hmodel]
    have hthread : (s.model.addPath path).1.m_statusUpdateThread.m_tasks
        = s.model.m_statusUpdateThread.m_tasks ++ [⟨path.normalizedPath, (paths.length : Int)⟩] := by
      rw [hmodel]
      exact htasks
    show ∃ item : Item, (s.model.addPath path).1.m_items[i]? = some item ∧ _ ∧ _ ∧ _ ∧ _ ∧
      (_ ∈ (s.model.addPath path).1.m_statusUpdateThread.m_tasks ∨ _)
    rw [hitems, hthread]
    rcases getElem?_append_singleton _ _ _ _ hget with hold | ⟨hi, hlast⟩
    · obtain ⟨item, hitem, h1, h2, h3, h4, hprobe⟩ := hs.rows i other hold
      refine ⟨item, getElem?_append_of_some _ _ _ _ hitem, h1, h2, h3, h4, ?_⟩
      rcases hprobe with h | h | h | h
      · exact Or.inl (List.mem_append_left _ h)
      · exact Or.inr (Or.inl h)
      · exact Or.inr (Or.inr (Or.inl h))
      · exact Or.inr (Or.inr (Or.inr h))
    · subst hi hlast
      refine ⟨Item.ofPath other, ?_, rfl, rfl, rfl, rfl,
        Or.inl (List.mem_append_right _ (List.mem_singleton_self _))⟩
      rw [← hs.length]
      exact List.getElem?_concat_length _ _

theorem step_workerTake_eq (s s1 : System) (hstep : s.step Action.workerTake = some s1) :
    ∃ (task : Task) (rest : List Task),
      s.worker = WorkerPhase.waiting ∧ s.model.m_statusUpdateThread.m_tasks = task :: rest ∧
        s1 = { s with
          model := { s.model with
            m_statusUpdateThread := { s.model.m_statusUpdateThread with
              m_pathBeingProcessed := task.path, m_tasks := rest } }
          worker := WorkerPhase.checking task } := by
  unfold System.step at hstep
  cases hw : s.worker with
  | waiting =>
    rw [hw] at hstep
    simp only at hstep
    split_ifs at hstep with hrun
    cases htaken : s.model.m_statusUpdateThread.takeTask with
    | none => rw [htaken] at hstep; exact Option.noConfusion hstep
    | some taken =>
      obtain ⟨task, th⟩ := taken
      rw [htaken] at hstep
      simp only [Option.some.injEq] at hstep
      unfold StatusUpdateThread.takeTask at htaken
      split_ifs at htaken
      cases htasks : s.model.m_statusUpdateThread.m_tasks with
      | nil => rw [htasks] at htaken; exact Option.noConfusion htaken
      | cons first rest =>
        rw [htasks] at htaken
        simp only [Option.some.injEq, Prod.mk.injEq] at htaken
        obtain ⟨h1, h2⟩ := htaken
        subst h1 h2
        exact ⟨first, rest, rfl, rfl, hstep.symm⟩
  | checking task => rw [hw] at hstep; exact Option.noConfusion hstep
  | posted => rw [hw] at hstep; exact Option.noConfusion hstep

theorem step_workerCheck_eq (s s1 : System) (fileExists : Bool)
    (hstep : s.step (Action.workerCheck fileExists) = some s1) :
    ∃ task : Task,
      s.worker = WorkerPhase.checking task ∧
        s1 = { s with
          events := s.events ++ [StatusUpdateThread.responseFor task fileExists]
          worker := WorkerPhase.posted } := by
  unfold System.step at hstep
  cases hw : s.worker with
  | waiting => rw [hw] at hstep; exact Option.noConfusion hstep
  | checking task =>
    rw [hw] at hstep
    simp only [Option.some.injEq] at hstep
    exact ⟨task, rfl, hstep.symm⟩
  | posted => rw [hw] at hstep; exact Option.noConfusion hstep

theorem step_workerClear_eq (s s1 : System) (hstep : s.step Action.workerClear = some s1) :
    s.worker = WorkerPhase.posted ∧
      s1 = { s with
        model := { s.model with
          m_statusUpdateThread := s.model.m_statusUpdateThread.clearPathBeingProcessed }
        worker := WorkerPhase.waiting } := by
  unfold System.step at hstep
  cases hw : s.worker with
  | waiting => rw [hw] at hstep; exact Option.noConfusion hstep
  | checking task => rw [hw] at hstep; exact Option.noConfusion hstep
  | posted =>
    rw [hw] at hstep
    simp only [Option.some.injEq] at hstep
    exact ⟨rfl, hstep.symm⟩

theorem step_deliverEvent_eq (s s1 : System) (hstep : s.step Action.deliverEvent = some s1) :
    ∃ (response : StatusUpdateResponse) (rest : List StatusUpdateResponse),
      s.events = response :: rest ∧
        s1 = { s with model := (s.model.customEvent response).1, events := rest } := by
  unfold System.step at hstep
  cases hev : s.events with
  | nil => rw [hev] at hstep; exact Option.noConfusion hstep
  | cons response rest =>
    rw [hev] at hstep
    simp only [Option.some.injEq] at hstep
    exact ⟨response, rest, rfl, hstep.symm⟩

theorem probeInv_workerTake (fileExists : QString → Bool) (paths : List RelinkablePath)
    (s s1 : System) (hs : ProbeInv fileExists paths s)
    (hstep : s.step Action.workerTake = some s1) : ProbeInv fileExists paths s1 := by
  obtain ⟨task, rest, hw, htasks, rfl⟩ := step_workerTake_eq s s1 hstep
  have hform := hs.tasks task (htasks ▸ List.mem_cons_self _ _)
  refine
    { tracked := hs.tracked, exiting := hs.exiting, inProgress := ?_, tasks := ?_,
      checking := ?_, events := hs.events, length := hs.length, rows := ?_ }
  · obtain ⟨i, path, hget, rfl⟩ := hform
    exact Or.inr (List.mem_map.2 ⟨path, List.getElem?_mem hget, rfl⟩)
  · intro other hother
    exact hs.tasks other (htasks ▸ List.mem_cons_of_mem _ hother)
  · intro other hother
    have heq : task = other := by
      simpa using hother
    exact heq ▸ hform
  · intro i path hget
    obtain ⟨item, hitem, h1, h2, h3, h4, hprobe⟩ := hs.rows i path hget
    refine ⟨item, hitem, h1, h2, h3, h4, ?_⟩
    rcases hprobe with h | h | h | h
    · rw [htasks] at h
      rcases List.mem_cons.1 h with hhead | hrest
      · exact Or.inr (Or.inl (by rw [hhead]))
      · exact Or.inl hrest
    · rw [hw] at h
      exact WorkerPhase.noConfusion h
    · exact Or.inr (Or.inr (Or.inl h))
    · exact Or.inr (Or.inr (Or.inr h))

theorem probeInv_workerCheck (fileExists : QString → Bool) (paths : List RelinkablePath)
    (s s1 : System) (hs : ProbeInv fileExists paths s)
    (hstep : s.step (ProbeStep.workerCheck.toAction fileExists s) = some s1) :
    ProbeInv fileExists paths s1 := by
  obtain ⟨task, hw, hs1⟩ := step_workerCheck_eq s s1 _ hstep
  have hbool : (match s.worker with
      | WorkerPhase.checking task => fileExists task.path
      | _ => false) = fileExists task.path := by
    rw [hw]
  rw [hbool] at hs1
  subst hs1
  obtain ⟨j, pathj, hgetj, htask⟩ := hs.checking task hw
  refine
    { tracked := hs.tracked, exiting := hs.exiting, inProgress := hs.inProgress,
      tasks := hs.tasks, checking := ?_, events := ?_, length := hs.length, rows := ?_ }
  · intro other hother
    exact WorkerPhase.noConfusion hother
  · intro response hr
    rcases List.mem_append.1 hr with hold | hlast
    · exact hs.events response hold
    · refine ⟨j, pathj, hgetj, ?_⟩
      rw [List.mem_singleton.1 hlast, htask]
  · intro i path hget
    obtain ⟨item, hitem, h1, h2, h3, h4, hprobe⟩ := hs.rows i path hget
    refine ⟨item, hitem, h1, h2, h3, h4, ?_⟩
    rcases hprobe with h | h | h | h
    · exact Or.inl h
    · rw [hw] at h
      have heq : task = ⟨path.normalizedPath, (i : Int)⟩ := by
        simpa using h
      refine Or.inr (Or.inr (Or.inl (List.mem_append_right _ ?_)))
      rw [heq]
      exact List.mem_singleton_self _
    · exact Or.inr (Or.inr (Or.inl (List.mem_append_left _ h)))
    · exact Or.inr (Or.inr (Or.inr h))

theorem probeInv_workerClear (fileExists : QString → Bool) (paths : List RelinkablePath)
    (s s1 : System) (hs : ProbeInv fileExists paths s)
    (hstep : s.step Action.workerClear = some s1) : ProbeInv fileExists paths s1 := by
  obtain ⟨hw, rfl⟩ := step_workerClear_eq s s1 hstep
  refine
    { tracked := hs.tracked, exiting := hs.exiting, inProgress := Or.inl rfl,
      tasks := hs.tasks, checking := ?_, events := hs.events, length := hs.length,
      rows := ?_ }
  · intro other hother
    exact WorkerPhase.noConfusion hother
  · intro i path hget
    obtain ⟨item, hitem, h1, h2, h3, h4, hprobe⟩ := hs.rows i path hget
    refine ⟨item, hitem, h1, h2, h3, h4, ?_⟩
    rcases hprobe with h | h | h | h
    · exact Or.inl h
    · rw [hw] at h
      exact WorkerPhase.noConfusion h
    · exact Or.inr (Or.inr (Or.inl h))
    · exact Or.inr (Or.inr (Or.inr h))

theorem customEventEntry_probed (fileExists : QString → Bool) (path : RelinkablePath)
    (row : Int) (item : Item) (h1 : item.origPath = path.normalizedPath)
    (h2 : item.committedPath = path.normalizedPath)
    (h3 : item.uncommittedPath = path.normalizedPath) (h4 : item.type = path.type) :
    customEventEntry
        (StatusUpdateThread.responseFor ⟨path.normalizedPath, row⟩
          (fileExists path.normalizedPath)) item
      = Item.probed fileExists path := by
  cases item
  simp_all [customEventEntry, StatusUpdateThread.responseFor, Item.probed]

theorem probeInv_deliverEvent (fileExists : QString → Bool) (paths : List RelinkablePath)
    (s s1 : System) (hs : ProbeInv fileExists paths s)
    (hstep : s.step Action.deliverEvent = some s1) : ProbeInv fileExists paths s1 := by
  obtain ⟨response, rest, hev, rfl⟩ := step_deliverEvent_eq s s1 hstep
  obtain ⟨j, pathj, hgetj, rfl⟩ := hs.events response (hev ▸ List.mem_cons_self _ _)
  obtain ⟨itemj, hitemj, hj1, hj2, hj3, hj4, _⟩ := hs.rows j pathj hgetj
  have hjlt : j < s.model.m_items.length := (List.getElem?_eq_some.1 hitemj).1
  have hmodel : (s.model.customEvent
      (StatusUpdateThread.responseFor ⟨pathj.normalizedPath, (j : Int)⟩
        (fileExists pathj.normalizedPath))).1
      = { s.model with m_items := s.model.m_items.set j (Item.probed fileExists pathj) } := by
    rw [customEvent_of_in_range s.model _ itemj (by simp [StatusUpdateThread.responseFor])
      (by simpa [StatusUpdateThread.responseFor] using hitemj),
      customEventEntry_probed fileExists pathj _ itemj hj1 hj2 hj3 hj4]
    rfl
  rw [hmodel]
  refine
    { tracked := hs.tracked, exiting := hs.exiting, inProgress := hs.inProgress,
      tasks := hs.tasks, checking := hs.checking, events := ?_, length := ?_, rows := ?_ }
  · intro other hother
    exact hs.events other (hev ▸ List.mem_cons_of_mem _ hother)
  · show (s.model.m_items.set j (Item.probed fileExists pathj)).length = paths.length
    rw [List.length_set]
    exact hs.length
  · intro i path hget
    show ∃ item : Item,
      (s.model.m_items.set j (Item.probed fileExists pathj))[i]? = some item ∧ _ ∧ _ ∧ _ ∧ _ ∧
        (_ ∈ s.model.m_statusUpdateThread.m_tasks ∨ _ ∨ _ ∈ rest ∨ _)
    by_cases hij : i = j
    · subst hij
      have hpath : path = pathj := Option.some.inj (hget.symm.trans hgetj)
      subst hpath
      refine ⟨Item.probed fileExists path, ?_, rfl, rfl, rfl, rfl,
        Or.inr (Or.inr (Or.inr rfl))⟩
      simp [List.getElem?_set, hjlt]
    · obtain ⟨item, hitem, h1, h2, h3, h4, hprobe⟩ := hs.rows i path hget
      refine ⟨item, ?_, h1, h2, h3, h4, ?_⟩
      · simp [List.getElem?_set, Ne.symm hij, hitem]
      · rcases hprobe with h | h | h | h
        · exact Or.inl h
        · exact Or.inr (Or.inl h)
        · rw [hev] at h
          rcases List.mem_cons.1 h with hhead | hrest
          · have hrow := congrArg StatusUpdateResponse.m_row hhead
            simp only [StatusUpdateThread.responseFor] at hrow
            exact absurd (Int.ofNat.inj hrow) hij
          · exact Or.inr (Or.inr (Or.inl hrest))
        · exact Or.inr (Or.inr (Or.inr h))

theorem addedPaths_cons_addPath (path : RelinkablePath) (rest : List ProbeStep) :
    addedPaths (ProbeStep.addPath path :: rest) = path :: addedPaths rest := rfl

theorem runProbes_probeInv (fileExists : QString → Bool) :
    ∀ (steps : List ProbeStep) (paths : List RelinkablePath) (s s1 : System),
      ProbeInv fileExists paths s →
      ((paths ++ addedPaths steps).map (fun path => path.normalizedPath)).Nodup →
      (∀ path ∈ addedPaths steps, path.normalizedPath ≠ []) →
      System.runProbes fileExists s steps = some s1 →
        ProbeInv fileExists (paths ++ addedPaths steps) s1
  | [], paths, s, s1, hs, _, _, hrun => by
    simp only [System.runProbes, Option.some.injEq] at hrun
    subst hrun
    simpa [addedPaths] using hs
  | step :: rest, paths, s, s1, hs, hd, hne, hrun => by
    simp only [System.runProbes] at hrun
    cases hstep : s.step (step.toAction fileExists s) with
    | none => rw [hstep] at hrun; exact Option.noConfusion hrun
    | some s2 =>
      rw [hstep] at hrun
      cases step with
      | addPath path =>
        simp only [ProbeStep.toAction, System.step, Option.some.injEq] at hstep
        subst hstep
        rw [addedPaths_cons_addPath] at hd hne ⊢
        have hd2 : (((paths ++ [path]) ++ addedPaths rest).map
            (fun path => path.normalizedPath)).Nodup := by
          simpa using hd
        have hnew : path.normalizedPath ∉ paths.map (fun path => path.normalizedPath) := by
          intro hmem
          rw [List.map_append, List.map_cons] at hd
          exact (List.disjoint_of_nodup_append hd) hmem (List.mem_cons_self _ _)
        have ih := runProbes_probeInv fileExists rest (paths ++ [path]) _ s1
          (probeInv_addPath fileExists paths s path hs hnew
            (hne path (List.mem_cons_self _ _)))
          hd2 (fun other hother => hne other (List.mem_cons_of_mem _ hother)) hrun
        simpa using ih
      | workerTake =>
        exact runProbes_probeInv fileExists rest paths s2 s1
          (probeInv_workerTake fileExists paths s s2 hs hstep) hd hne hrun
      | workerCheck =>
        exact runProbes_probeInv fileExists rest paths s2 s1
          (probeInv_workerCheck fileExists paths s s2 hs hstep) hd hne hrun
      | workerClear =>
        exact runProbes_probeInv fileExists rest paths s2 s1
          (probeInv_workerClear fileExists paths s s2 hs hstep) hd hne hrun
      | deliverEvent =>
        exact runProbes_probeInv fileExists rest paths s2 s1
          (probeInv_deliverEvent fileExists paths s s2 hs hstep) hd hne hrun

theorem probeInv_quiescent (fileExists : QString → Bool) (paths : List RelinkablePath)
    (s : System) (hs : ProbeInv fileExists paths s)
    (hq : s.model.m_statusUpdateThread.m_tasks = [])
    (hw : ∀ task : Task, s.worker ≠ WorkerPhase.checking task) (he : s.events = []) :
    s.model.m_items = paths.map (Item.probed fileExists) := by
  apply List.ext_getElem?
  intro i
  by_cases hi : i < paths.length
  · have hget : paths[i]? = some paths[i] := List.getElem?_eq_getElem hi
    obtain ⟨item, hitem, _, _, _, _, hprobe⟩ := hs.rows i paths[i] hget
    rw [hitem, List.getElem?_map, hget]
    rcases hprobe with h | h | h | h
    · rw [hq] at h
      exact absurd h (List.not_mem_nil _)
    · exact absurd h (hw _)
    · rw [he] at h
      exact absurd h (List.not_mem_nil _)
    · rw [h]
      rfl
  · rw [List.getElem?_eq_none (by rw [hs.length]; omega),
      List.getElem?_eq_none (by rw [List.length_map]; omega)]

/-- C17 (probing from end to end). For every filesystem predicate and every list
of paths with pairwise distinct, non-empty normalized forms: when the paths are
added to a fresh registry, the worker then runs for at least as many passes as
there are paths and its responses are applied in order, the queue is empty and
every entry has its three paths equal to the normalized path and both statuses
`Exists` when the path exists and `Missing` otherwise; and the entries are the
same at the end of every interleaving of these `addPath` calls with the steps of
the worker and the deliveries that leaves no task queued, no check in progress
and no response undelivered. -/
theorem probes_end_to_end (fileExists : QString → Bool) (paths : List RelinkablePath)
    (hd : (paths.map (fun path => path.normalizedPath)).Nodup)
    (hne : ∀ path ∈ paths, path.normalizedPath ≠ []) :
    (∀ fuel : Nat, paths.length ≤ fuel →
      ((RelinkingModel.init.addPaths paths).processProbes fileExists fuel).m_items
          = paths.map (fun path =>
              { origPath := path.normalizedPath, committedPath := path.normalizedPath,
                uncommittedPath := path.normalizedPath, type := path.type,
                committedStatus :=
                  if fileExists path.normalizedPath then Status.Exists else Status.Missing,
                uncommittedStatus :=
                  if fileExists path.normalizedPath then Status.Exists
                  else Status.Missing }) ∧
        ((RelinkingModel.init.addPaths paths).processProbes fileExists
            fuel).m_statusUpdateThread.m_tasks = []) ∧
    (∀ (steps : List ProbeStep) (s : System),
      addedPaths steps = paths →
      System.runProbes fileExists System.init steps = some s →
      s.model.m_statusUpdateThread.m_tasks = [] →
      (∀ task : Task, s.worker ≠ WorkerPhase.checking task) → s.events = [] →
        s.model.m_items
          = paths.map (fun path =>
              { origPath := path.normalizedPath, committedPath := path.normalizedPath,
                uncommittedPath := path.normalizedPath, type := path.type,
                committedStatus :=
                  if fileExists path.normalizedPath then Status.Exists else Status.Missing,
                uncommittedStatus :=
                  if fileExists path.normalizedPath then Status.Exists
                  else Status.Missing })) := by
  refine ⟨fun fuel hfuel => processProbes_addPaths fileExists paths fuel hd hne hfuel,
    fun steps s hsteps hrun hq hw he => ?_⟩
  subst hsteps
  have hinv := runProbes_probeInv fileExists steps [] System.init s (probeInv_init fileExists)
    (by simpa using hd) hne hrun
  rw [List.nil_append] at hinv
  exact probeInv_quiescent fileExists (addedPaths steps) s hinv hq hw he

/-- C17, at the scenario of the specification, where `/docs/a.txt` exists and
`/docs/sub` does not: the entries end with statuses `Exists` and `Missing`, both
when the worker runs after the two `addPath` calls and in `exampleScenario`, where
it takes the first task before the second path is added. -/
theorem probes_end_to_end_witness :
    ((RelinkingModel.init.addPaths
        [⟨"/docs/a.txt".toList, PathType.File⟩,
          ⟨"/docs/sub".toList, PathType.Dir⟩]).processProbes exampleFileExists 2).m_items
      = [⟨"/docs/a.txt".toList, "/docs/a.txt".toList, "/docs/a.txt".toList, PathType.File,
            Status.Exists, Status.Exists⟩,
          ⟨"/docs/sub".toList, "/docs/sub".toList, "/docs/sub".toList, PathType.Dir,
            Status.Missing, Status.Missing⟩] ∧
    exampleScenario.model.m_items
      = [⟨"/docs/a.txt".toList, "/docs/a.txt".toList, "/docs/a.txt".toList, PathType.File,
            Status.Exists, Status.Exists⟩,
          ⟨"/docs/sub".toList, "/docs/sub".toList, "/docs/sub".toList, PathType.Dir,
            Status.Missing, Status.Missing⟩] :=
  ⟨((probes_end_to_end exampleFileExists
      [⟨"/docs/a.txt".toList, PathType.File⟩, ⟨"/docs/sub".toList, PathType.Dir⟩]
      (by decide) (by decide)).1 2 (by decide)).1,
    (probes_end_to_end exampleFileExists
      [⟨"/docs/a.txt".toList, PathType.File⟩, ⟨"/docs/sub".toList, PathType.Dir⟩]
      (by decide) (by decide)).2 exampleScenarioSteps exampleScenario (by decide) (by decide)
      (by decide)
      (fun task h =>
        WorkerPhase.noConfusion
          ((show exampleScenario.worker = WorkerPhase.waiting from by decide).symm.trans h))
      (by decide)⟩

end Relinking
